import Mathlib

/-!
Verification of the record-correction engine of the FitViewer repository
(`core/pdbCorrection.py`).  PDB text lines are modelled as `List Char`
(`Str`); Python slicing `line[a:b]` is `pySlice`, `line[a:]` is `List.drop a`.
The stateful corrector `PDB_Corr` is modelled by explicit state passing of
its `current` dictionary (`Current`); Python exceptions (`ValueError` from
the hybrid36 codec, `ValueError` from `int(...)`, `UnboundLocalError` from
reading the unassigned loop variable `is_ter`) are modelled by `Option`,
`none` meaning the pass aborts with an exception.
-/

/-- A text line, as a list of characters. -/
abbrev Str := List Char

/-- Python slicing `l[a:b]` (for `0 ≤ a ≤ b`). -/
def pySlice (l : Str) (a b : Nat) : Str := (l.drop a).take (b - a)

/-- Python `s.rjust(w, c)`: pad on the left with `c` up to length `w`. -/
def rightJustify (w : Nat) (c : Char) (s : Str) : Str :=
  List.replicate (w - s.length) c ++ s

/-- Python `s.strip()` restricted to the whitespace that occurs in PDB
records (the space character). -/
def pyStrip (s : Str) : Str :=
  ((s.dropWhile (· = ' ')).reverse.dropWhile (· = ' ')).reverse

/-- Association-list lookup, modelling Python `dict` lookup on the small
static nomenclature tables. -/
def tblGet : List (Str × Str) → Str → Option Str
  | [], _ => none
  | (k, v) :: t, s => if s = k then some v else tblGet t s

/-- Parse a nonempty all-decimal-digit string. -/
def parseDigits (cs : Str) : Option Nat :=
  if cs ≠ [] ∧ cs.all (fun c => decide ('0' ≤ c ∧ c ≤ '9')) then
    some (cs.foldl (fun a c => 10 * a + (c.toNat - 48)) 0)
  else none

/-- Python `int(s.replace(" ", ""))`: drop every space, then parse an
optionally signed decimal integer; `none` models the `ValueError`. -/
def parsePyInt (s : Str) : Option Int :=
  match s.filter (fun c => c ≠ ' ') with
  | [] => none
  | c :: rest =>
    if c = '-' then (parseDigits rest).map (fun n => -(n : Int))
    else if c = '+' then (parseDigits rest).map (fun n => (n : Int))
    else (parseDigits (c :: rest)).map (fun n => (n : Int))

/-- `digits_upper` of `number_to_hybrid36_number`. -/
def digitsUpper : Str := "0123456789ABCDEFGHIJKLMNOPQRSTUVWXYZ".toList

/-- `digits_lower` of `number_to_hybrid36_number`. -/
def digitsLower : Str := "0123456789abcdefghijklmnopqrstuvwxyz".toList

/-- The base-10 digits, used to model Python's decimal formatting. -/
def decDigits : Str := "0123456789".toList

/-- The digit-emitting loop of `encode_pure`, little-endian; the first
argument is fuel (the loop runs at most `value` times since the value is
divided by the base, which is at least 2, on every iteration). -/
def encodePureAux (digits : Str) : Nat → Nat → Str
  | _, 0 => []
  | 0, _ + 1 => []
  | f + 1, v + 1 =>
    digits.getD ((v + 1) % digits.length) ' ' ::
      encodePureAux digits f ((v + 1) / digits.length)

/-- `encode_pure(digits, value)`: big-endian positional encoding of `value`
in base `len(digits)`; `0` encodes as the first digit. -/
def encode_pure (digits : Str) (value : Nat) : Str :=
  if value = 0 then [digits.getD 0 ' '] else (encodePureAux digits value value).reverse

/-- Python's decimal rendering `str(i)` / `"{:d}".format(i)`. -/
def formatInt (i : Int) : Str :=
  if i < 0 then '-' :: encode_pure decDigits i.natAbs else encode_pure decDigits i.toNat

/-- Python `"{:{width}d}".format(i)`: decimal, right-justified with spaces. -/
def decFormat (i : Int) (w : Nat) : Str := rightJustify w ' ' (formatInt i)

/-- `number_to_hybrid36_number(number, width)`; `none` models the raised
`ValueError("value out of range.")`. -/
def number_to_hybrid36_number (number : Int) (width : Nat) : Option Str :=
  if 1 - (10 : Int) ^ (width - 1) ≤ number then
    if number < (10 : Int) ^ width then
      some (decFormat number width)
    else
      if number - (10 : Int) ^ width < 26 * (36 : Int) ^ (width - 1) then
        some (encode_pure digitsUpper
          (number - (10 : Int) ^ width + 10 * (36 : Int) ^ (width - 1)).toNat)
      else
        if number - (10 : Int) ^ width - 26 * (36 : Int) ^ (width - 1) <
            26 * (36 : Int) ^ (width - 1) then
          some (encode_pure digitsLower
            (number - (10 : Int) ^ width - 26 * (36 : Int) ^ (width - 1) +
              10 * (36 : Int) ^ (width - 1)).toNat)
        else none
  else none

/-- The `HEADER` constant prepended when `keep_header` is enabled. -/
def HEADER : Str := "AUTHORS:     Martin, Casanal, Feigl        VERSION: 0.4.0\n".toList

/-- The `NOMCLA` atom-name remap table. -/
def NOMCLA : List (Str × Str) :=
  [(" O1P".toList, " OP1".toList), (" O2P".toList, " OP2".toList),
   (" C5M".toList, " C7 ".toList)]

/-- The `NOMCLA_BASE` residue-name remap table. -/
def NOMCLA_BASE : List (Str × Str) :=
  [("CYT".toList, " DC".toList), ("GUA".toList, " DG".toList),
   ("THY".toList, " DT".toList), ("ADE".toList, " DA".toList),
   ("DA5".toList, " DA".toList), ("DA3".toList, " DA".toList),
   ("DT5".toList, " DT".toList), ("DT3".toList, " DT".toList),
   ("DG5".toList, " DG".toList), ("DG3".toList, " DG".toList),
   ("DC5".toList, " DC".toList), ("DC3".toList, " DC".toList)]

/-- The `Logic` policy record: eight independently settable booleans. -/
structure Logic where
  nomenclature : Bool := true
  molecule_chain : Bool := true
  atom_number : Bool := true
  occupancy : Bool := true
  atomtype : Bool := true
  remove_H : Bool := true
  reset_numbers : Bool := true
  keep_header : Bool := true
deriving DecidableEq, Repr

/-- All eight corrections enabled (the `Logic()` defaults). -/
def allLogic : Logic := {}

/-- `PDB_Corr.current`, the mutable state dictionary of the corrector; the
one-character Python string `chain_id` is modelled as a `Char`. -/
structure Current where
  atom_number : Int
  old_molecule_number : Int
  last_molecule_number : Int
  chain_id : Char
  chain_id_repeats : Nat
  chain : Option Str
deriving DecidableEq, Repr

/-- The state installed by `PDB_Corr.__attrs_post_init__`. -/
def initCurrent : Current :=
  { atom_number := 1, old_molecule_number := 1, last_molecule_number := 1,
    chain_id := 'A', chain_id_repeats := 1, chain := none }

/-- The 26-letter chain alphabet of `increase_chain_id`. -/
def chainLetters : Str := "ABCDEFGHIJKLMNOPQRSTUVWXYZ".toList

/-- Python `str.find` on the chain alphabet: index of the character, `-1`
when absent. -/
def strFind (l : Str) (c : Char) : Int :=
  if c ∈ l then (l.indexOf c : Int) else -1

/-- `increase_chain_id`: next chain letter, wrapping from the last letter to
the second one (the first is reserved for the scaffold). -/
def increase_chain_id (current_chain_id : Char) : Char :=
  let pos := strFind chainLetters current_chain_id
  if pos + 1 < 26 then chainLetters.getD (pos + 1).toNat 'A'
  else chainLetters.getD 1 'A'

/-- `PDB_Corr.correct_atom_number`: write the width-5 hybrid36 encoding of
the running counter into columns `[6,11)` and bump the counter. -/
def correct_atom_number (cur : Current) (line : Str) : Option (Str × Current) :=
  match number_to_hybrid36_number cur.atom_number 5 with
  | none => none
  | some s =>
    some (line.take 5 ++ [' '] ++ s ++ line.drop 11,
      { cur with atom_number := cur.atom_number + 1 })

/-- `PDB_Corr.correct_nomenclature`: remap atom name `[12,16)` and residue
name `[17,20)` through the static tables. -/
def correct_nomenclature (line : Str) : Str :=
  let atom := pySlice line 12 16
  let atom' := match tblGet NOMCLA atom with | some a => a | none => atom
  let base := pySlice line 17 20
  let base' := match tblGet NOMCLA_BASE base with | some b => b | none => base
  line.take 12 ++ atom' ++ [' '] ++ base' ++ line.drop 20

/-- `PDB_Corr.correct_occupancy`: force the occupancy columns. -/
def correct_occupancy (line : Str) : Str :=
  line.take 54 ++ "  1.00  ".toList ++ line.drop 62

/-- `PDB_Corr.correct_atomtype`: derive the element code from the atom-name
columns and right-justify it into columns `[76,78)`. -/
def correct_atomtype (line : Str) : Str :=
  let atom := pySlice line 12 14
  let atom' := if atom.getD 1 ' ' ∈ decDigits then [atom.getD 0 ' '] else atom
  line.take 76 ++ rightJustify 2 ' ' (pyStrip atom') ++ line.drop 78

/-- `PDB_Corr.remove_H`: drop the record (return the empty line) when the
atom-name columns contain a hydrogen symbol. -/
def remove_H (line : Str) : Str :=
  if 'H' ∈ pySlice line 12 16 then [] else line

/-- `PDB_Corr.correct_molecule_chain`: the chain/residue renumbering state
machine.  Returns the rewritten line, the terminator flag, and the updated
state; `none` models the `ValueError` raised by `int(...)` on a malformed
residue-number column or by the hybrid36 codec. -/
def correct_molecule_chain (cur : Current) (reset_numbers : Bool) (line : Str) :
    Option (Str × Bool × Current) :=
  let chain := pySlice line 72 76
  match parsePyInt (pySlice line 22 26) with
  | none => none
  | some molecule_number =>
    let step : Char × Int × Bool × Nat :=
      match cur.chain with
      | none => (cur.chain_id, 1, false, cur.chain_id_repeats)
      | some prev =>
        if chain = prev then
          if molecule_number = cur.old_molecule_number then
            (cur.chain_id, cur.last_molecule_number, false, cur.chain_id_repeats)
          else if molecule_number = cur.old_molecule_number + 1 then
            (cur.chain_id, cur.last_molecule_number + 1, false, cur.chain_id_repeats)
          else
            (cur.chain_id, cur.last_molecule_number + 10, true, cur.chain_id_repeats)
        else
          (increase_chain_id cur.chain_id, 1, true,
            if cur.chain_id = 'Z' then cur.chain_id_repeats + 1 else cur.chain_id_repeats)
    let new_chain_id := step.1
    let new_molecule_number := step.2.1
    let is_ter := step.2.2.1
    let repeats := step.2.2.2
    let new_chain_str := new_chain_id :: rightJustify 3 '0' (formatInt (repeats : Int))
    match number_to_hybrid36_number
        (if reset_numbers then new_molecule_number else molecule_number) 4 with
    | none => none
    | some new_molecule_number_str =>
      let newline := line.take 21 ++ [new_chain_id] ++ new_molecule_number_str ++
        pySlice line 26 67 ++ List.replicate 5 ' ' ++ new_chain_str ++ line.drop 76
      some (newline, is_ter,
        { cur with chain_id := new_chain_id, chain := some chain,
                   old_molecule_number := molecule_number,
                   last_molecule_number := new_molecule_number,
                   chain_id_repeats := repeats })

/-- The terminator record. -/
def TERLINE : Str := "TER\n".toList

/-- One iteration of the `correct_pdb` loop.  `isTer` models the loop-local
Python variable `is_ter`: `none` means it has not been assigned yet, and
reading it then (which happens exactly when `molecule_chain` is disabled
and an atom record passes the blank-name check) raises `UnboundLocalError`,
modelled by the `none` result. -/
def processLine (logic : Logic) (cur : Current) (isTer : Option Bool) (line : Str) :
    Option (List Str × Current × Option Bool) :=
  if pySlice line 0 6 = "TITLE ".toList ∨ pySlice line 0 6 = "CRYST1".toList then
    some ([line], cur, isTer)
  else if pySlice line 0 6 = "ATOM  ".toList then
    if pySlice line 13 15 = [' ', ' '] then some ([], cur, isTer)
    else
      let line1 := if logic.nomenclature then correct_nomenclature line else line
      match (if logic.molecule_chain then
              (correct_molecule_chain cur logic.reset_numbers line1).map
                (fun r => (r.1, r.2.2, some r.2.1))
            else some (line1, cur, isTer)) with
      | none => none
      | some (line2, cur2, isTer2) =>
        match (if logic.atom_number then correct_atom_number cur2 line2
               else some (line2, cur2)) with
        | none => none
        | some (line3, cur3) =>
          let line4 := if logic.occupancy then correct_occupancy line3 else line3
          let line5 := if logic.atomtype then correct_atomtype line4 else line4
          let line6 := if logic.remove_H then remove_H line5 else line5
          match isTer2 with
          | none => none
          | some t => some ((if t then [TERLINE] else []) ++ [line6], cur3, isTer2)
  else some ([], cur, isTer)

/-- The `for line in pdb_file` loop of `correct_pdb`, accumulating the body. -/
def processLines (logic : Logic) (cur : Current) (isTer : Option Bool) :
    List Str → Option (List Str × Current × Option Bool)
  | [] => some ([], cur, isTer)
  | line :: rest =>
    match processLine logic cur isTer line with
    | none => none
    | some (out, cur1, t1) =>
      match processLines logic cur1 t1 rest with
      | none => none
      | some (outs, cur2, t2) => some (out ++ outs, cur2, t2)

/-- `PDB_Corr.correct_pdb`: optional header, corrected body, final
terminator and end marker; the result is the joined output text together
with the corrector state left behind by the call. -/
def correct_pdb (cur : Current) (pdb_file : List Str) (logic : Logic) :
    Option (Str × Current) :=
  match processLines logic cur none pdb_file with
  | none => none
  | some (body, cur', _) =>
    some ((((if logic.keep_header then [HEADER] else []) ++ body ++
      ["TER\nEND\n".toList]).flatten), cur')

/-- Build a well-formed 80-column ATOM record (plus trailing newline) from
an atom name, residue name, residue-sequence field and segment id. -/
def mkAtomLine (name resName resSeq segid : Str) : Str :=
  "ATOM  ".toList ++ "    1 ".toList ++ name ++ [' '] ++ resName ++ " A".toList ++
    resSeq ++ "    ".toList ++ List.replicate 24 ' ' ++ "  0.00  0.00".toList ++
    List.replicate 6 ' ' ++ segid ++ " C  \n".toList

/-- A plain carbon record on segment `A`. -/
def lineC1 : Str := mkAtomLine " C1 ".toList " DG".toList "   1".toList "A   ".toList

/-- A hydrogen record on segment `A`, same residue as `lineC1`. -/
def lineH1 : Str := mkAtomLine " H1 ".toList " DG".toList "   1".toList "A   ".toList

/-- A second carbon record on segment `A`, same residue as `lineC1`. -/
def lineC2 : Str := mkAtomLine " C2 ".toList " DG".toList "   1".toList "A   ".toList

/-- A hydrogen record on segment `B`: processed after `lineC1` it triggers a
chain break (terminator) and is itself dropped by hydrogen removal. -/
def lineH2B : Str := mkAtomLine " H1 ".toList " DG".toList "   1".toList "B   ".toList

/-- A record whose atom-name field `[12,16)` is non-blank only at column
15, so that the blank test on columns `[13,15)` still succeeds. -/
def lineEdgeName : Str := mkAtomLine "   N".toList " DG".toList "   1".toList "A   ".toList

/-- A record with unmapped atom and residue names and a non-blank character
in column 16 (the altLoc column between the two name fields). -/
def lineAltLoc : Str :=
  (mkAtomLine " N1 ".toList "XYZ".toList "   1".toList "A   ".toList).set 16 'Q'

/-- The `Logic` policy with only `molecule_chain` disabled. -/
def logicNoMC : Logic := { molecule_chain := false }

/-- Value of a big-endian digit list in base `b`. -/
def beVal (b : Nat) (l : List Nat) : Nat := l.foldl (fun a d => b * a + d) 0

/-- An input line that `correct_pdb` actually corrects: an ATOM record that
passes the blank-name test on columns `[13,15)`. -/
def isQualifying (line : Str) : Bool :=
  decide (pySlice line 0 6 = "ATOM  ".toList) &&
    !decide (pySlice line 13 15 = [' ', ' '])

/-- Number of corrected (serial-consuming) records in an input sequence. -/
def countQualifying (lines : List Str) : Nat := (lines.filter isQualifying).length

/-! ### Base-conversion machinery -/

theorem encodePureAux_eq_digits (digits : Str) (h2 : 2 ≤ digits.length) :
    ∀ fuel v, v ≤ fuel →
      encodePureAux digits fuel v =
        (Nat.digits digits.length v).map (fun d => digits.getD d ' ') := by
  intro fuel
  induction fuel with
  | zero =>
    intro v hv
    interval_cases v
    simp [encodePureAux]
  | succ f ih =>
    intro v hv
    match v with
    | 0 => simp [encodePureAux]
    | w + 1 =>
      rw [Nat.digits_def' (b := digits.length) (by omega) (Nat.succ_pos w),
        List.map_cons]
      show encodePureAux digits (f + 1) (w + 1) = _
      rw [encodePureAux]
      congr 1
      refine ih ((w + 1) / digits.length) ?_
      have : (w + 1) / digits.length < w + 1 :=
        Nat.div_lt_self (Nat.succ_pos w) (by omega)
      omega

theorem encode_pure_eq_digits (digits : Str) (h2 : 2 ≤ digits.length) (v : Nat)
    (hv : v ≠ 0) :
    encode_pure digits v =
      ((Nat.digits digits.length v).map (fun d => digits.getD d ' ')).reverse := by
  rw [encode_pure, if_neg hv, encodePureAux_eq_digits digits h2 v v le_rfl]

theorem digits_length_of_bounds {b m w : Nat} (hb : 1 < b) (hw : 1 ≤ w)
    (h1 : b ^ (w - 1) ≤ m) (h2 : m < b ^ w) :
    (Nat.digits b m).length = w := by
  have hm : m ≠ 0 := by
    have := Nat.one_le_pow (w - 1) b (by omega)
    omega
  have hlog : Nat.log b m = w - 1 :=
    Nat.log_eq_of_pow_le_of_lt_pow h1 (by rwa [Nat.sub_add_cancel hw])
  rw [Nat.digits_len b m hb hm, hlog]
  omega

theorem digits_length_le_of_lt {b m w : Nat} (hb : 1 < b) (h : m < b ^ w) :
    (Nat.digits b m).length ≤ w := by
  rcases Nat.eq_zero_or_pos m with rfl | hm
  · simp
  · rw [Nat.digits_len b m hb (by omega)]
    have := (Nat.lt_pow_iff_log_lt hb (by omega : m ≠ 0)).mp h
    omega

theorem beVal_foldl (b : Nat) (l : List Nat) (a : Nat) :
    l.foldl (fun x d => b * x + d) a = a * b ^ l.length + beVal b l := by
  induction l generalizing a with
  | nil => simp [beVal]
  | cons d t ih =>
    simp only [List.foldl_cons, List.length_cons]
    rw [ih (b * a + d), show beVal b (d :: t) = t.foldl (fun x d => b * x + d) d by
      simp [beVal], ih d]
    ring

theorem beVal_cons (b d : Nat) (t : List Nat) :
    beVal b (d :: t) = d * b ^ t.length + beVal b t := by
  show (d :: t).foldl (fun x d => b * x + d) 0 = _
  rw [List.foldl_cons, beVal_foldl]
  ring_nf

theorem beVal_lt_pow {b : Nat} (l : List Nat) (hl : ∀ d ∈ l, d < b) :
    beVal b l < b ^ l.length := by
  induction l with
  | nil => simp [beVal]
  | cons d t ih =>
    rw [beVal_cons, List.length_cons, pow_succ]
    have hd : d < b := hl d (by simp)
    have ht := ih (fun x hx => hl x (by simp [hx]))
    have h1 : (d + 1) * b ^ t.length ≤ b * b ^ t.length :=
      Nat.mul_le_mul_right _ (by omega)
    have h2 : d * b ^ t.length + b ^ t.length = (d + 1) * b ^ t.length := by ring
    have h3 : b * b ^ t.length = b ^ t.length * b := by ring
    omega

theorem lex_of_beVal_lt {b : Nat} : ∀ (l1 l2 : List Nat), l1.length = l2.length →
    (∀ d ∈ l1, d < b) → (∀ d ∈ l2, d < b) → beVal b l1 < beVal b l2 →
    List.Lex (· < ·) l1 l2 := by
  intro l1
  induction l1 with
  | nil =>
    intro l2 hlen _ _ hv
    cases l2 with
    | nil => simp [beVal] at hv
    | cons d2 t2 => simp at hlen
  | cons d1 t1 ih =>
    intro l2 hlen h1 h2 hv
    cases l2 with
    | nil => simp at hlen
    | cons d2 t2 =>
      simp only [List.length_cons] at hlen
      have hlen' : t1.length = t2.length := by omega
      rw [beVal_cons, beVal_cons, hlen'] at hv
      have hb1 := beVal_lt_pow t1 (fun x hx => h1 x (by simp [hx]))
      have hb2 := beVal_lt_pow t2 (fun x hx => h2 x (by simp [hx]))
      rw [hlen'] at hb1
      rcases Nat.lt_trichotomy d1 d2 with h | h | h
      · exact List.Lex.rel h
      · subst h
        exact List.Lex.cons (ih t2 hlen' (fun x hx => h1 x (by simp [hx]))
          (fun x hx => h2 x (by simp [hx])) (by omega))
      · exfalso
        have hB : d2 * b ^ t2.length + b ^ t2.length ≤ d1 * b ^ t2.length := by
          have hm := Nat.mul_le_mul_right (b ^ t2.length) (show d2 + 1 ≤ d1 by omega)
          have : (d2 + 1) * b ^ t2.length = d2 * b ^ t2.length + b ^ t2.length := by
            ring
          omega
        omega

theorem beVal_append_singleton (b d : Nat) (l : List Nat) :
    beVal b (l ++ [d]) = b * beVal b l + d := by
  simp [beVal, List.foldl_append]

theorem beVal_reverse_ofDigits (b : Nat) (L : List Nat) :
    beVal b L.reverse = Nat.ofDigits b L := by
  induction L with
  | nil => simp [beVal]
  | cons d t ih =>
    rw [List.reverse_cons, beVal_append_singleton, ih, Nat.ofDigits_cons]
    ring

theorem beVal_reverse_digits (b m : Nat) :
    beVal b ((Nat.digits b m).reverse) = m := by
  rw [beVal_reverse_ofDigits, Nat.ofDigits_digits]

theorem lex_map_of_mono {f : Nat → Char} : ∀ {l1 l2 : List Nat},
    List.Lex (· < ·) l1 l2 → (∀ a ∈ l1, ∀ c ∈ l2, a < c → f a < f c) →
    List.Lex (· < ·) (l1.map f) (l2.map f) := by
  intro l1 l2 h
  induction h with
  | nil =>
    intro _
    exact List.Lex.nil
  | @cons a t1 t2 h ih =>
    intro hm
    exact List.Lex.cons (ih (fun x hx c hc => hm x (by simp [hx]) c (by simp [hc])))
  | @rel a1 t1 a2 t2 h =>
    intro hm
    exact List.Lex.rel (hm a1 (by simp) a2 (by simp) h)

/-! ### Range and band lemmas for the hybrid36 codec -/

theorem hybrid36_none_iff (w : Nat) (v : Int) (hw : 1 ≤ w) :
    number_to_hybrid36_number v w = none ↔
      v < 1 - 10 ^ (w - 1) ∨ 10 ^ w + 2 * 26 * 36 ^ (w - 1) ≤ v := by
  have hA : (0 : ℤ) < 10 ^ (w - 1) := by positivity
  have hB : (0 : ℤ) < 10 ^ w := by positivity
  have hC : (0 : ℤ) < 36 ^ (w - 1) := by positivity
  unfold number_to_hybrid36_number
  split_ifs with h1 h2 h3 h4 <;> simp <;> omega

theorem hybrid36_decimal_eq {w : Nat} {v : Int} (h1 : 1 - 10 ^ (w - 1) ≤ v)
    (h2 : v < 10 ^ w) :
    number_to_hybrid36_number v w = some (decFormat v w) := by
  unfold number_to_hybrid36_number
  rw [if_pos h1, if_pos h2]

theorem hybrid36_upper_eq {w : Nat} {v : Int}
    (h1 : (10 : ℤ) ^ w ≤ v) (h2 : v < 10 ^ w + 26 * 36 ^ (w - 1)) :
    number_to_hybrid36_number v w =
      some (encode_pure digitsUpper (v - 10 ^ w + 10 * 36 ^ (w - 1)).toNat) := by
  have hA : (0 : ℤ) < 10 ^ (w - 1) := by positivity
  have hB : (0 : ℤ) < 10 ^ w := by positivity
  unfold number_to_hybrid36_number
  rw [if_pos (by omega), if_neg (by omega), if_pos (by omega)]

theorem hybrid36_lower_eq {w : Nat} {v : Int}
    (h1 : (10 : ℤ) ^ w + 26 * 36 ^ (w - 1) ≤ v)
    (h2 : v < 10 ^ w + 52 * 36 ^ (w - 1)) :
    number_to_hybrid36_number v w =
      some (encode_pure digitsLower
        (v - 10 ^ w - 26 * 36 ^ (w - 1) + 10 * 36 ^ (w - 1)).toNat) := by
  have hA : (0 : ℤ) < 10 ^ (w - 1) := by positivity
  have hB : (0 : ℤ) < 10 ^ w := by positivity
  have hC : (0 : ℤ) < 36 ^ (w - 1) := by positivity
  unfold number_to_hybrid36_number
  rw [if_pos (by omega), if_neg (by omega), if_neg (by omega), if_pos (by omega)]

theorem decDigits_getD_eq {d : Nat} (hd : d < 10) :
    decDigits.getD d ' ' = Char.ofNat (48 + d) := by
  interval_cases d <;> decide

theorem decDigits_getD_is_digit {d : Nat} (hd : d < 10) :
    '0' ≤ decDigits.getD d ' ' ∧ decDigits.getD d ' ' ≤ '9' := by
  interval_cases d <;> decide

theorem encode_pure_ne_nil (digits : Str) (n : Nat) : encode_pure digits n ≠ [] := by
  unfold encode_pure
  split_ifs with h
  · simp
  · intro hc
    rw [List.reverse_eq_nil_iff] at hc
    have h2 : 2 ≤ digits.length ∨ ¬2 ≤ digits.length := em _
    rcases Nat.exists_eq_succ_of_ne_zero h with ⟨m, rfl⟩
    rw [encodePureAux] at hc
    exact List.cons_ne_nil _ _ hc

theorem encode_pure_dec_mem {n : Nat} {c : Char} (hc : c ∈ encode_pure decDigits n) :
    '0' ≤ c ∧ c ≤ '9' := by
  by_cases h : n = 0
  · subst h
    have h0 : encode_pure decDigits 0 = ['0'] := by decide
    rw [h0, List.mem_singleton] at hc
    subst hc
    decide
  · rw [encode_pure_eq_digits decDigits (by decide) n h] at hc
    rw [List.mem_reverse, List.mem_map] at hc
    obtain ⟨d, hd, rfl⟩ := hc
    exact decDigits_getD_is_digit
      (Nat.digits_lt_base (by decide : 1 < decDigits.length) hd)

theorem encode_pure_dec_length_le {n k : Nat} (hn : n ≠ 0) (h : n < 10 ^ k) :
    (encode_pure decDigits n).length ≤ k := by
  rw [encode_pure_eq_digits decDigits (by decide) n hn, List.length_reverse,
    List.length_map]
  exact digits_length_le_of_lt (b := decDigits.length) (by decide) (by simpa using h)

theorem rightJustify_length {w : Nat} {c : Char} {s : Str} (h : s.length ≤ w) :
    (rightJustify w c s).length = w := by
  simp [rightJustify]
  omega

theorem formatInt_length_le {v : Int} {w : Nat} (hw : 1 ≤ w)
    (h1 : 1 - 10 ^ (w - 1) ≤ v) (h2 : v < 10 ^ w) : (formatInt v).length ≤ w := by
  unfold formatInt
  split_ifs with hneg
  · simp only [List.length_cons]
    have hcast : ((10 ^ (w - 1) : ℕ) : ℤ) = (10 : ℤ) ^ (w - 1) := by push_cast; ring
    have habs : v.natAbs < 10 ^ (w - 1) := by omega
    have hne : v.natAbs ≠ 0 := by omega
    have := encode_pure_dec_length_le hne habs
    omega
  · by_cases h0 : v.toNat = 0
    · rw [h0]
      simp [encode_pure]
      omega
    · have hcast : ((10 ^ w : ℕ) : ℤ) = (10 : ℤ) ^ w := by push_cast; ring
      exact encode_pure_dec_length_le h0 (by omega)

theorem decFormat_length {v : Int} {w : Nat} (hw : 1 ≤ w)
    (h1 : 1 - 10 ^ (w - 1) ≤ v) (h2 : v < 10 ^ w) : (decFormat v w).length = w :=
  rightJustify_length (formatInt_length_le hw h1 h2)

theorem encode_pure36_length {digits : Str} (hd : digits.length = 36) {m w : Nat}
    (hw : 1 ≤ w) (h1 : 10 * 36 ^ (w - 1) ≤ m) (h2 : m < 36 ^ w) :
    (encode_pure digits m).length = w := by
  have hpow := Nat.one_le_pow (w - 1) 36 (by norm_num)
  have hm : m ≠ 0 := by omega
  rw [encode_pure_eq_digits digits (by omega) m hm, List.length_reverse,
    List.length_map, hd]
  exact digits_length_of_bounds (by norm_num) hw (by omega) h2

theorem foldl_digit_chars (M : List Nat) (hM : ∀ d ∈ M, d < 10) :
    ∀ a : Nat, (M.map (fun d => decDigits.getD d ' ')).foldl
        (fun x c => 10 * x + (c.toNat - 48)) a =
      M.foldl (fun x d => 10 * x + d) a := by
  induction M with
  | nil => intro a; rfl
  | cons d t ih =>
    intro a
    simp only [List.map_cons, List.foldl_cons]
    have hd : d < 10 := hM d (by simp)
    have hc : (decDigits.getD d ' ').toNat - 48 = d := by
      interval_cases d <;> decide
    rw [hc]
    exact ih (fun x hx => hM x (by simp [hx])) (10 * a + d)

theorem parseDigits_encode_pure_dec (n : Nat) :
    parseDigits (encode_pure decDigits n) = some n := by
  unfold parseDigits
  rw [if_pos]
  · congr 1
    by_cases h : n = 0
    · subst h; decide
    · rw [encode_pure_eq_digits decDigits (by decide) n h]
      have hmem : ∀ d ∈ Nat.digits 10 n, d < 10 := fun d hd =>
        Nat.digits_lt_base (by norm_num) hd
      have hd10 : decDigits.length = 10 := by decide
      rw [hd10, ← List.map_reverse, foldl_digit_chars _
        (fun d hd => hmem d (List.mem_reverse.mp hd))]
      show beVal 10 (Nat.digits 10 n).reverse = n
      exact beVal_reverse_digits 10 n
  · constructor
    · exact encode_pure_ne_nil decDigits n
    · rw [List.all_eq_true]
      intro c hc
      exact decide_eq_true (encode_pure_dec_mem hc)

theorem parsePyInt_decFormat {v : Int} (w : Nat) (h0 : 0 ≤ v) :
    parsePyInt (decFormat v w) = some v := by
  have hform : formatInt v = encode_pure decDigits v.toNat := by
    unfold formatInt
    rw [if_neg (by omega)]
  have hfilter : (decFormat v w).filter (fun c => c ≠ ' ') =
      encode_pure decDigits v.toNat := by
    unfold decFormat rightJustify
    rw [hform, List.filter_append]
    have h1 : (List.replicate (w - (encode_pure decDigits v.toNat).length) ' ').filter
        (fun c => c ≠ ' ') = [] := by
      simp
    rw [h1, List.nil_append]
    rw [List.filter_eq_self]
    intro c hc
    have := encode_pure_dec_mem hc
    simp only [ne_eq, decide_eq_true_eq]
    intro hsp
    subst hsp
    revert this
    decide
  obtain ⟨c, rest, hcr⟩ : ∃ c rest, encode_pure decDigits v.toNat = c :: rest := by
    cases henc : encode_pure decDigits v.toNat with
    | nil => exact absurd henc (encode_pure_ne_nil _ _)
    | cons c rest => exact ⟨c, rest, rfl⟩
  have hcdig : '0' ≤ c ∧ c ≤ '9' := encode_pure_dec_mem (by rw [hcr]; simp)
  have hne1 : c ≠ '-' := by rintro rfl; revert hcdig; decide
  have hne2 : c ≠ '+' := by rintro rfl; revert hcdig; decide
  unfold parsePyInt
  rw [hfilter, hcr]
  simp only [hne1, hne2, if_false, ite_false]
  rw [← hcr, parseDigits_encode_pure_dec]
  simp [Int.toNat_of_nonneg h0]

theorem digitsUpper_getD_mono :
    ∀ a, a < 36 → ∀ c, c < 36 → a < c →
      digitsUpper.getD a ' ' < digitsUpper.getD c ' ' := by decide

theorem digitsLower_getD_mono :
    ∀ a, a < 36 → ∀ c, c < 36 → a < c →
      digitsLower.getD a ' ' < digitsLower.getD c ' ' := by decide

theorem encode_pure36_lex {digits : Str} (hd : digits.length = 36)
    (hmono : ∀ a, a < 36 → ∀ c, c < 36 → a < c →
      digits.getD a ' ' < digits.getD c ' ')
    {m1 m2 w : Nat} (hw : 1 ≤ w) (hm1 : 10 * 36 ^ (w - 1) ≤ m1) (h12 : m1 < m2)
    (hm2 : m2 < 36 ^ w) :
    List.Lex (· < ·) (encode_pure digits m1) (encode_pure digits m2) := by
  have hpow := Nat.one_le_pow (w - 1) 36 (by norm_num)
  have hne1 : m1 ≠ 0 := by omega
  have hne2 : m2 ≠ 0 := by omega
  rw [encode_pure_eq_digits digits (by omega) m1 hne1,
    encode_pure_eq_digits digits (by omega) m2 hne2, hd,
    ← List.map_reverse, ← List.map_reverse]
  have hlt1 : ∀ x ∈ (Nat.digits 36 m1).reverse, x < 36 := fun x hx =>
    Nat.digits_lt_base (by norm_num) (List.mem_reverse.mp hx)
  have hlt2 : ∀ x ∈ (Nat.digits 36 m2).reverse, x < 36 := fun x hx =>
    Nat.digits_lt_base (by norm_num) (List.mem_reverse.mp hx)
  have hlen1 : (Nat.digits 36 m1).length = w :=
    digits_length_of_bounds (by norm_num) hw (by omega) (by omega)
  have hlen2 : (Nat.digits 36 m2).length = w :=
    digits_length_of_bounds (by norm_num) hw (by omega) hm2
  have hlex : List.Lex (· < ·) (Nat.digits 36 m1).reverse (Nat.digits 36 m2).reverse := by
    refine lex_of_beVal_lt _ _ (by simp [hlen1, hlen2]) hlt1 hlt2 ?_
    rw [beVal_reverse_digits, beVal_reverse_digits]
    exact h12
  exact lex_map_of_mono hlex
    (fun a ha c hc hac => hmono a (hlt1 a ha) c (hlt2 c hc) hac)

theorem lex_ne {l1 l2 : Str} (h : List.Lex (· < ·) l1 l2) : l1 ≠ l2 := by
  induction h with
  | nil => exact fun hc => List.noConfusion hc
  | @cons a t1 t2 h ih => intro hc; exact ih (by injection hc)
  | @rel a1 t1 a2 t2 h =>
    intro hc
    injection hc with h1 _
    subst h1
    exact lt_irrefl a1 h

theorem hybrid36_length {w : Nat} {v : Int} {s : Str} (hw : 1 ≤ w)
    (h : number_to_hybrid36_number v w = some s) : s.length = w := by
  have hA : (0 : ℤ) < 10 ^ (w - 1) := by positivity
  have hB : (0 : ℤ) < 10 ^ w := by positivity
  have hC : (0 : ℤ) < 36 ^ (w - 1) := by positivity
  have hc36 : ((36 ^ (w - 1) : ℕ) : ℤ) = (36 : ℤ) ^ (w - 1) := by push_cast; ring
  have hc36w : ((36 ^ w : ℕ) : ℤ) = (36 : ℤ) ^ w := by push_cast; ring
  have h36succ : (36 : ℤ) ^ w = 36 * 36 ^ (w - 1) := by
    conv_lhs => rw [show w = (w - 1) + 1 by omega]
    rw [pow_succ]
    ring
  unfold number_to_hybrid36_number at h
  split_ifs at h with h1 h2 h3 h4
  · injection h with h
    subst h
    exact decFormat_length hw h1 h2
  · injection h with h
    subst h
    refine encode_pure36_length (by decide) hw ?_ ?_ <;> omega
  · injection h with h
    subst h
    refine encode_pure36_length (by decide) hw ?_ ?_ <;> omega

/-- **C3**: for every width `w ≥ 1` the hybrid36 encoder fails exactly when
the value lies outside `[1 - 10^(w-1), 10^w + 2*26*36^(w-1))`, and returns a
string for every value inside; in particular for width 2 it fails for every
`v ≥ 100 + 2*26*36`. -/
theorem hybrid36_range_error_iff :
    (∀ (w : Nat) (v : Int), 1 ≤ w →
      (number_to_hybrid36_number v w = none ↔
        v < 1 - 10 ^ (w - 1) ∨ 10 ^ w + 2 * 26 * 36 ^ (w - 1) ≤ v)) ∧
    (∀ v : Int, 100 + 2 * 26 * 36 ≤ v → number_to_hybrid36_number v 2 = none) := by
  constructor
  · exact fun w v hw => hybrid36_none_iff w v hw
  · intro v hv
    rw [hybrid36_none_iff 2 v (by norm_num)]
    right
    norm_num
    omega

/-- Witness for `hybrid36_range_error_iff` at width 2: value 1972 is
rejected, value 500 is encoded. -/
theorem hybrid36_range_error_iff_witness :
    number_to_hybrid36_number 1972 2 = none ∧
      number_to_hybrid36_number 500 2 ≠ none :=
  ⟨hybrid36_range_error_iff.2 1972 (by norm_num),
   fun h => by
     have h2 := (hybrid36_range_error_iff.1 2 500 (by norm_num)).mp h
     revert h2
     norm_num⟩

/-- **C4**: in the decimal band `0 ≤ v < 10^w` the encoder returns the
width-`w` right-justified decimal rendering, which decimal parsing maps back
to `v`; beyond the decimal band every supported value is encoded in exactly
`w` characters, and within each base-36 band distinct values get distinct
codes whose lexicographic order matches the numeric order. -/
theorem hybrid36_decimal_band_props :
    (∀ (w : Nat) (v : Int), 1 ≤ w → 0 ≤ v → v < 10 ^ w →
      number_to_hybrid36_number v w = some (decFormat v w) ∧
      (decFormat v w).length = w ∧ parsePyInt (decFormat v w) = some v) ∧
    (∀ (w : Nat) (v : Int) (s : Str), 1 ≤ w → 10 ^ w ≤ v →
      v < 10 ^ w + 26 * 36 ^ (w - 1) →
      number_to_hybrid36_number v w = some s → s.length = w) ∧
    (∀ (w : Nat) (v : Int) (s : Str), 1 ≤ w → 10 ^ w + 26 * 36 ^ (w - 1) ≤ v →
      v < 10 ^ w + 52 * 36 ^ (w - 1) →
      number_to_hybrid36_number v w = some s → s.length = w) ∧
    (∀ (w : Nat) (v1 v2 : Int) (s1 s2 : Str), 1 ≤ w → 10 ^ w ≤ v1 → v1 < v2 →
      v2 < 10 ^ w + 26 * 36 ^ (w - 1) →
      number_to_hybrid36_number v1 w = some s1 →
      number_to_hybrid36_number v2 w = some s2 →
      s1 ≠ s2 ∧ List.Lex (· < ·) s1 s2) ∧
    (∀ (w : Nat) (v1 v2 : Int) (s1 s2 : Str), 1 ≤ w →
      10 ^ w + 26 * 36 ^ (w - 1) ≤ v1 → v1 < v2 →
      v2 < 10 ^ w + 52 * 36 ^ (w - 1) →
      number_to_hybrid36_number v1 w = some s1 →
      number_to_hybrid36_number v2 w = some s2 →
      s1 ≠ s2 ∧ List.Lex (· < ·) s1 s2) := by
  refine ⟨?_, ?_, ?_, ?_, ?_⟩
  · intro w v hw h0 hlt
    have hA : (0 : ℤ) < 10 ^ (w - 1) := by positivity
    exact ⟨hybrid36_decimal_eq (by omega) hlt,
      decFormat_length hw (by omega) hlt, parsePyInt_decFormat w h0⟩
  · intro w v s hw _ _ henc
    exact hybrid36_length hw henc
  · intro w v s hw _ _ henc
    exact hybrid36_length hw henc
  · intro w v1 v2 s1 s2 hw hl h12 hu e1 e2
    have hC : (0 : ℤ) < 36 ^ (w - 1) := by positivity
    have hB : (0 : ℤ) < 10 ^ w := by positivity
    have hc36 : ((36 ^ (w - 1) : ℕ) : ℤ) = (36 : ℤ) ^ (w - 1) := by push_cast; ring
    have hc36w : ((36 ^ w : ℕ) : ℤ) = (36 : ℤ) ^ w := by push_cast; ring
    have h36succ : (36 : ℤ) ^ w = 36 * 36 ^ (w - 1) := by
      conv_lhs => rw [show w = (w - 1) + 1 by omega]
      rw [pow_succ]
      ring
    rw [hybrid36_upper_eq hl (by omega)] at e1
    rw [hybrid36_upper_eq (by omega) hu] at e2
    injection e1 with e1
    injection e2 with e2
    subst e1
    subst e2
    constructor
    · exact lex_ne (encode_pure36_lex (by decide) digitsUpper_getD_mono hw
        (by omega) (by omega) (by omega))
    · exact encode_pure36_lex (by decide) digitsUpper_getD_mono hw
        (by omega) (by omega) (by omega)
  · intro w v1 v2 s1 s2 hw hl h12 hu e1 e2
    have hC : (0 : ℤ) < 36 ^ (w - 1) := by positivity
    have hB : (0 : ℤ) < 10 ^ w := by positivity
    have hc36 : ((36 ^ (w - 1) : ℕ) : ℤ) = (36 : ℤ) ^ (w - 1) := by push_cast; ring
    have hc36w : ((36 ^ w : ℕ) : ℤ) = (36 : ℤ) ^ w := by push_cast; ring
    have h36succ : (36 : ℤ) ^ w = 36 * 36 ^ (w - 1) := by
      conv_lhs => rw [show w = (w - 1) + 1 by omega]
      rw [pow_succ]
      ring
    rw [hybrid36_lower_eq hl (by omega)] at e1
    rw [hybrid36_lower_eq (by omega) hu] at e2
    injection e1 with e1
    injection e2 with e2
    subst e1
    subst e2
    constructor
    · exact lex_ne (encode_pure36_lex (by decide) digitsLower_getD_mono hw
        (by omega) (by omega) (by omega))
    · exact encode_pure36_lex (by decide) digitsLower_getD_mono hw
        (by omega) (by omega) (by omega)

/-- Witness for `hybrid36_decimal_band_props` at width 2 with values 37
(decimal band) and 1001 < 1002 (upper band, codes `Z1 < Z2`). -/
theorem hybrid36_decimal_band_props_witness :
    (number_to_hybrid36_number 37 2 = some (decFormat 37 2) ∧
      (decFormat 37 2).length = 2 ∧ parsePyInt (decFormat 37 2) = some 37) ∧
    ("Z1".toList ≠ "Z2".toList ∧
      List.Lex (· < ·) "Z1".toList "Z2".toList) :=
  ⟨hybrid36_decimal_band_props.1 2 37 (by norm_num) (by norm_num) (by norm_num),
   hybrid36_decimal_band_props.2.2.2.1 2 1001 1002 "Z1".toList "Z2".toList
     (by norm_num) (by norm_num) (by norm_num) (by norm_num) (by decide)
     (by decide)⟩

/-! ### Chain/residue renumbering lemmas -/

theorem increase_chain_id_next : ∀ c ∈ chainLetters, c ≠ 'Z' →
    increase_chain_id c = Char.ofNat (c.toNat + 1) ∧ increase_chain_id c ≠ 'A' := by
  decide

theorem increase_chain_id_Z : increase_chain_id 'Z' = 'B' := by decide

theorem formatInt_nat_length_le {n k : Nat} (hk : 1 ≤ k) (h : n < 10 ^ k) :
    (formatInt (n : Int)).length ≤ k := by
  have hA : (0 : ℤ) < 10 ^ (k - 1) := by positivity
  have hcast : ((10 ^ k : ℕ) : ℤ) = (10 : ℤ) ^ k := by push_cast; ring
  exact formatInt_length_le hk (by omega) (by omega)

theorem pySlice_append_mid {p m rest : Str} {a b : Nat} (hp : p.length = a)
    (hm : m.length = b - a) :
    pySlice ((p ++ m) ++ rest) a b = m := by
  unfold pySlice
  rw [List.append_assoc]
  have h1 : (p ++ (m ++ rest)).drop a = m ++ rest := by
    rw [← hp, List.drop_left]
  rw [h1, ← hm, List.take_left]

/-- **C5**: for a record whose segment id equals the stored one, the state
machine reuses the previous output residue number on an identical input
residue number, increments it by one on a consecutive input residue number,
and otherwise jumps by ten and marks a terminator. -/
theorem molecule_chain_same_segment_rules
    (cur : Current) (line : Str) (reset : Bool) (m : Int) (nl : Str) (t : Bool)
    (cur' : Current)
    (hchain : cur.chain = some (pySlice line 72 76))
    (hm : parsePyInt (pySlice line 22 26) = some m)
    (hres : correct_molecule_chain cur reset line = some (nl, t, cur')) :
    (m = cur.old_molecule_number →
      cur'.last_molecule_number = cur.last_molecule_number ∧ t = false) ∧
    (m = cur.old_molecule_number + 1 →
      cur'.last_molecule_number = cur.last_molecule_number + 1 ∧ t = false) ∧
    (m ≠ cur.old_molecule_number → m ≠ cur.old_molecule_number + 1 →
      cur'.last_molecule_number = cur.last_molecule_number + 10 ∧ t = true) := by
  unfold correct_molecule_chain at hres
  rw [hm, hchain] at hres
  refine ⟨?_, ?_, ?_⟩
  · intro h1
    simp only [if_pos rfl, h1, ite_true, if_true] at hres
    split at hres
    · exact absurd hres (by simp)
    · rw [Option.some_inj, Prod.mk.injEq, Prod.mk.injEq] at hres
      obtain ⟨h_nl, h_t, h_cur⟩ := hres
      subst h_cur
      exact ⟨rfl, h_t.symm⟩
  · intro h1
    have hne : cur.old_molecule_number + 1 ≠ cur.old_molecule_number := by omega
    simp only [if_pos rfl, h1, hne, ite_true, if_true, if_false, ite_false] at hres
    split at hres
    · exact absurd hres (by simp)
    · rw [Option.some_inj, Prod.mk.injEq, Prod.mk.injEq] at hres
      obtain ⟨h_nl, h_t, h_cur⟩ := hres
      subst h_cur
      exact ⟨rfl, h_t.symm⟩
  · intro hne1 hne2
    simp only [if_pos rfl, hne1, hne2, if_false, ite_false] at hres
    split at hres
    · exact absurd hres (by simp)
    · rw [Option.some_inj, Prod.mk.injEq, Prod.mk.injEq] at hres
      obtain ⟨h_nl, h_t, h_cur⟩ := hres
      subst h_cur
      exact ⟨rfl, h_t.symm⟩

/-- Witness for `molecule_chain_same_segment_rules`: a record with segment
id `A   ` and residue number 1 processed in a state that already saw that
segment and residue keeps the output residue number and marks no
terminator. -/
theorem molecule_chain_same_segment_rules_witness :
    ({ initCurrent with chain := some ("A   ".toList) } : Current).last_molecule_number =
        ({ initCurrent with chain := some ("A   ".toList) } : Current).last_molecule_number ∧
      false = false :=
  (molecule_chain_same_segment_rules
      { initCurrent with chain := some ("A   ".toList) } lineC1 true 1
      ("ATOM      1  C1   DG A   1                              0.00  0.00      A001 C  \n".toList)
      false { initCurrent with chain := some ("A   ".toList) }
      (by decide) (by decide) (by decide)).1 rfl

/-- **C6**: for a record whose segment id differs from the stored one, the
terminator is marked, the output residue number resets to 1, the chain
letter advances (wrapping from `Z` to `B`, never to `A`, bumping the repeat
counter), and the trailing segment label of the produced record is the new
chain letter followed by the zero-padded three-digit repeat counter. -/
theorem molecule_chain_new_segment_rules
    (cur : Current) (line : Str) (reset : Bool) (prev : Str) (m : Int) (nl : Str)
    (t : Bool) (cur' : Current)
    (hchain : cur.chain = some prev)
    (hnePrev : pySlice line 72 76 ≠ prev)
    (hm : parsePyInt (pySlice line 22 26) = some m)
    (hmem : cur.chain_id ∈ chainLetters)
    (hlen : 67 ≤ line.length)
    (hrep : cur.chain_id_repeats < 999)
    (hres : correct_molecule_chain cur reset line = some (nl, t, cur')) :
    t = true ∧ cur'.last_molecule_number = 1 ∧
    cur'.chain_id = increase_chain_id cur.chain_id ∧ cur'.chain_id ≠ 'A' ∧
    (cur.chain_id = 'Z' → cur'.chain_id = 'B' ∧
      cur'.chain_id_repeats = cur.chain_id_repeats + 1) ∧
    (cur.chain_id ≠ 'Z' → cur'.chain_id = Char.ofNat (cur.chain_id.toNat + 1) ∧
      cur'.chain_id_repeats = cur.chain_id_repeats) ∧
    pySlice nl 72 76 =
      cur'.chain_id :: rightJustify 3 '0' (formatInt (cur'.chain_id_repeats : Int)) := by
  unfold correct_molecule_chain at hres
  rw [hm, hchain] at hres
  simp only [if_neg hnePrev, ite_false, if_false] at hres
  split at hres
  · exact absurd hres (by simp)
  · next nm henc =>
    rw [Option.some_inj, Prod.mk.injEq, Prod.mk.injEq] at hres
    obtain ⟨h_nl, h_t, h_cur⟩ := hres
    subst h_cur
    subst h_nl
    have hnm : nm.length = 4 := hybrid36_length (by norm_num) henc
    have hrep' : (if cur.chain_id = 'Z' then cur.chain_id_repeats + 1
        else cur.chain_id_repeats) < 1000 := by
      split <;> omega
    have hlab : (increase_chain_id cur.chain_id ::
        rightJustify 3 '0' (formatInt ((if cur.chain_id = 'Z' then
          cur.chain_id_repeats + 1 else cur.chain_id_repeats : Nat) : Int))).length = 4 := by
      simp only [List.length_cons]
      rw [rightJustify_length (formatInt_nat_length_le (by norm_num) hrep')]
    refine ⟨h_t.symm, rfl, rfl, ?_, ?_, ?_, ?_⟩
    · show increase_chain_id cur.chain_id ≠ 'A'
      by_cases hz : cur.chain_id = 'Z'
      · rw [hz, increase_chain_id_Z]
        decide
      · exact (increase_chain_id_next cur.chain_id hmem hz).2
    · intro hz
      constructor
      · show increase_chain_id cur.chain_id = 'B'
        rw [hz]
        exact increase_chain_id_Z
      · show (if cur.chain_id = 'Z' then cur.chain_id_repeats + 1
          else cur.chain_id_repeats) = cur.chain_id_repeats + 1
        simp [hz]
    · intro hz
      constructor
      · show increase_chain_id cur.chain_id = Char.ofNat (cur.chain_id.toNat + 1)
        exact (increase_chain_id_next cur.chain_id hmem hz).1
      · show (if cur.chain_id = 'Z' then cur.chain_id_repeats + 1
          else cur.chain_id_repeats) = cur.chain_id_repeats
        simp [hz]
    · refine pySlice_append_mid ?_ ?_
      · simp only [List.length_append, List.length_take, List.length_cons,
          List.length_nil, pySlice, List.length_drop, List.length_replicate, hnm]
        omega
      · exact hlab

/-- Witness for `molecule_chain_new_segment_rules`: from stored segment
`Q   ` and chain letter `A`, a record on segment `A   ` marks a terminator
and gets chain letter `B` with trailing label `B001`. -/
theorem molecule_chain_new_segment_rules_witness :
    true = true ∧
      pySlice ("ATOM      1  C1   DG B   1                              0.00  0.00      B001 C  \n".toList)
          72 76 =
        'B' :: rightJustify 3 '0' (formatInt ((1 : Nat) : Int)) :=
  have H := molecule_chain_new_segment_rules
    { initCurrent with chain := some ("Q   ".toList) } lineC1 true
    ("Q   ".toList) 1
    ("ATOM      1  C1   DG B   1                              0.00  0.00      B001 C  \n".toList)
    true
    { atom_number := 1, old_molecule_number := 1, last_molecule_number := 1,
      chain_id := 'B', chain_id_repeats := 1, chain := some ("A   ".toList) }
    (by decide) (by decide) (by decide) (by decide) (by decide) (by decide)
    (by decide)
  ⟨H.1, H.2.2.2.2.2.2⟩

/-! ### Nomenclature remap: frame effect -/

theorem take_pref {p rest : Str} {a : Nat} (hp : p.length = a) :
    (p ++ rest).take a = p := by
  rw [← hp, List.take_left]

theorem drop_pref {p rest : Str} {a : Nat} (hp : p.length = a) :
    (p ++ rest).drop a = rest := by
  rw [← hp, List.drop_left]

theorem pySlice_pref {p m rest : Str} {a b : Nat} (hp : p.length = a)
    (hm : m.length = b - a) :
    pySlice (p ++ (m ++ rest)) a b = m := by
  unfold pySlice
  have h1 : (p ++ (m ++ rest)).drop a = m ++ rest := by
    rw [← hp, List.drop_left]
  rw [h1, ← hm, List.take_left]

theorem length_pySlice (l : Str) (a b : Nat) :
    (pySlice l a b).length = min (b - a) (l.length - a) := by
  simp [pySlice]

theorem drop_eq_pySlice_append {l : Str} {a b : Nat} (hab : a ≤ b) :
    l.drop a = pySlice l a b ++ l.drop b := by
  have hd : l.drop b = (l.drop a).drop (b - a) := by
    rw [List.drop_drop]
    congr 1
    omega
  rw [pySlice, hd, List.take_append_drop]

theorem tblGet_mem : ∀ (t : List (Str × Str)) (k a : Str),
    tblGet t k = some a → ∃ p, p ∈ t ∧ p.2 = a := by
  intro t
  induction t with
  | nil =>
    intro k a h
    simp [tblGet] at h
  | cons x xs ih =>
    intro k a h
    obtain ⟨k1, v1⟩ := x
    rw [tblGet] at h
    split_ifs at h with hk
    · injection h with h
      exact ⟨(k1, v1), by simp, h⟩
    · obtain ⟨p, hp, hpa⟩ := ih k a h
      exact ⟨p, by simp [hp], hpa⟩

theorem tblGet_NOMCLA_length {k a : Str} (h : tblGet NOMCLA k = some a) :
    a.length = 4 := by
  obtain ⟨p, hp, rfl⟩ := tblGet_mem _ _ _ h
  exact (show ∀ q ∈ NOMCLA, q.2.length = 4 by decide) p hp

theorem tblGet_NOMCLA_BASE_length {k a : Str} (h : tblGet NOMCLA_BASE k = some a) :
    a.length = 3 := by
  obtain ⟨p, hp, rfl⟩ := tblGet_mem _ _ _ h
  exact (show ∀ q ∈ NOMCLA_BASE, q.2.length = 3 by decide) p hp

theorem nomcl_decomp {line X Y : Str} (hlen : 20 ≤ line.length)
    (hX : X.length = 4) (hY : Y.length = 3)
    (hout : correct_nomenclature line =
      line.take 12 ++ (X ++ ([' '] ++ (Y ++ line.drop 20)))) :
    (correct_nomenclature line).take 12 = line.take 12 ∧
    pySlice (correct_nomenclature line) 12 16 = X ∧
    pySlice (correct_nomenclature line) 16 17 = [' '] ∧
    pySlice (correct_nomenclature line) 17 20 = Y ∧
    (correct_nomenclature line).drop 20 = line.drop 20 := by
  have h12 : (line.take 12).length = 12 := by
    simp only [List.length_take]
    omega
  have h16 : (line.take 12 ++ X).length = 16 := by
    simp only [List.length_append, h12, hX]
  have h17 : ((line.take 12 ++ X) ++ [' ']).length = 17 := by
    simp only [List.length_append, h12, hX, List.length_cons, List.length_nil]
  have h20 : (((line.take 12 ++ X) ++ [' ']) ++ Y).length = 20 := by
    simp only [List.length_append, h12, hX, hY, List.length_cons, List.length_nil]
  refine ⟨?_, ?_, ?_, ?_, ?_⟩
  · rw [hout]
    exact take_pref h12
  · rw [hout]
    exact pySlice_pref h12 (by omega)
  · rw [hout, ← List.append_assoc]
    exact pySlice_pref h16 (by simp)
  · rw [hout, ← List.append_assoc, ← List.append_assoc]
    exact pySlice_pref h17 (by omega)
  · rw [hout, ← List.append_assoc, ← List.append_assoc, ← List.append_assoc]
    exact drop_pref h20

theorem line_decomp_nomcl {line : Str} (hlen : 20 ≤ line.length) :
    line = line.take 12 ++ (pySlice line 12 16 ++
      (pySlice line 16 17 ++ (pySlice line 17 20 ++ line.drop 20))) := by
  have hd12 : line.drop 12 = pySlice line 12 16 ++ line.drop 16 :=
    drop_eq_pySlice_append (by omega)
  have hd16 : line.drop 16 = pySlice line 16 17 ++ line.drop 17 :=
    drop_eq_pySlice_append (by omega)
  have hd17 : line.drop 17 = pySlice line 17 20 ++ line.drop 20 :=
    drop_eq_pySlice_append (by omega)
  conv_lhs => rw [← List.take_append_drop 12 line, hd12, hd16, hd17]

/-- **C8 (amended)**: the nomenclature remap rewrites only the atom-name
columns `[12,16)` and residue-name columns `[17,20)` through the tables
(unmapped names pass through) and forces the altLoc column 16 to a blank;
all other columns are preserved, and a record with unmapped names whose
column 16 already holds a blank is returned unchanged. -/
theorem nomenclature_frame_effect (line : Str) (hlen : 20 ≤ line.length) :
    (correct_nomenclature line).take 12 = line.take 12 ∧
    (tblGet NOMCLA (pySlice line 12 16) = none →
      pySlice (correct_nomenclature line) 12 16 = pySlice line 12 16) ∧
    (∀ a, tblGet NOMCLA (pySlice line 12 16) = some a →
      pySlice (correct_nomenclature line) 12 16 = a) ∧
    pySlice (correct_nomenclature line) 16 17 = [' '] ∧
    (tblGet NOMCLA_BASE (pySlice line 17 20) = none →
      pySlice (correct_nomenclature line) 17 20 = pySlice line 17 20) ∧
    (∀ b, tblGet NOMCLA_BASE (pySlice line 17 20) = some b →
      pySlice (correct_nomenclature line) 17 20 = b) ∧
    (correct_nomenclature line).drop 20 = line.drop 20 ∧
    (tblGet NOMCLA (pySlice line 12 16) = none →
      tblGet NOMCLA_BASE (pySlice line 17 20) = none →
      pySlice line 16 17 = [' '] → correct_nomenclature line = line) := by
  have hlA : (pySlice line 12 16).length = 4 := by
    rw [length_pySlice]
    omega
  have hlB : (pySlice line 17 20).length = 3 := by
    rw [length_pySlice]
    omega
  rcases hA : tblGet NOMCLA (pySlice line 12 16) with _ | a <;>
    rcases hB : tblGet NOMCLA_BASE (pySlice line 17 20) with _ | b
  · obtain ⟨ht, hs1, hs2, hs3, hd⟩ := nomcl_decomp hlen hlA hlB
      (by simp [correct_nomenclature, hA, hB, List.append_assoc])
    refine ⟨ht, fun _ => hs1, ?_, hs2, fun _ => hs3, ?_, hd, ?_⟩
    · intro a ha
      exact Option.noConfusion ha
    · intro b hb
      exact Option.noConfusion hb
    · intro _ _ h16
      have hout : correct_nomenclature line =
          line.take 12 ++ (pySlice line 12 16 ++
            ([' '] ++ (pySlice line 17 20 ++ line.drop 20))) := by
        simp [correct_nomenclature, hA, hB, List.append_assoc]
      rw [hout, ← h16]
      exact (line_decomp_nomcl hlen).symm
  · have hlb : b.length = 3 := tblGet_NOMCLA_BASE_length hB
    obtain ⟨ht, hs1, hs2, hs3, hd⟩ := nomcl_decomp hlen hlA hlb
      (by simp [correct_nomenclature, hA, hB, List.append_assoc])
    refine ⟨ht, fun _ => hs1, ?_, hs2, ?_, ?_, hd, ?_⟩
    · intro a ha
      exact Option.noConfusion ha
    · intro hb
      exact Option.noConfusion hb
    · intro b' hb'
      injection hb' with hbb
      rw [← hbb]
      exact hs3
    · intro _ hnb
      exact Option.noConfusion hnb
  · have hla : a.length = 4 := tblGet_NOMCLA_length hA
    obtain ⟨ht, hs1, hs2, hs3, hd⟩ := nomcl_decomp hlen hla hlB
      (by simp [correct_nomenclature, hA, hB, List.append_assoc])
    refine ⟨ht, ?_, ?_, hs2, fun _ => hs3, ?_, hd, ?_⟩
    · intro ha
      exact Option.noConfusion ha
    · intro a' ha'
      injection ha' with haa
      rw [← haa]
      exact hs1
    · intro b hb
      exact Option.noConfusion hb
    · intro hna
      exact Option.noConfusion hna
  · have hla : a.length = 4 := tblGet_NOMCLA_length hA
    have hlb : b.length = 3 := tblGet_NOMCLA_BASE_length hB
    obtain ⟨ht, hs1, hs2, hs3, hd⟩ := nomcl_decomp hlen hla hlb
      (by simp [correct_nomenclature, hA, hB, List.append_assoc])
    refine ⟨ht, ?_, ?_, hs2, ?_, ?_, hd, ?_⟩
    · intro ha
      exact Option.noConfusion ha
    · intro a' ha'
      injection ha' with haa
      rw [← haa]
      exact hs1
    · intro hb
      exact Option.noConfusion hb
    · intro b' hb'
      injection hb' with hbb
      rw [← hbb]
      exact hs3
    · intro hna
      exact Option.noConfusion hna

/-- Witness for `nomenclature_frame_effect`: a record with mapped atom name
` O1P` is rewritten to ` OP1` while the columns after 20 are untouched. -/
theorem nomenclature_frame_effect_witness :
    pySlice (correct_nomenclature
      (mkAtomLine " O1P".toList "CYT".toList "   1".toList "A   ".toList)) 12 16 =
      " OP1".toList ∧
    (correct_nomenclature
      (mkAtomLine " O1P".toList "CYT".toList "   1".toList "A   ".toList)).drop 20 =
      (mkAtomLine " O1P".toList "CYT".toList "   1".toList "A   ".toList).drop 20 :=
  have H := nomenclature_frame_effect
    (mkAtomLine " O1P".toList "CYT".toList "   1".toList "A   ".toList) (by decide)
  ⟨H.2.2.1 (" OP1".toList) (by decide), H.2.2.2.2.2.2.1⟩

/-- **C8 (counterexample)**: a record whose atom and residue names are both
unmapped but whose column 16 holds `Q` is not returned identical: the remap
blanks column 16. -/
theorem nomenclature_alters_column16 :
    tblGet NOMCLA (pySlice lineAltLoc 12 16) = none ∧
    tblGet NOMCLA_BASE (pySlice lineAltLoc 17 20) = none ∧
    pySlice lineAltLoc 16 17 = ['Q'] ∧
    correct_nomenclature lineAltLoc ≠ lineAltLoc ∧
    pySlice (correct_nomenclature lineAltLoc) 16 17 = [' '] := by decide

/-! ### The blank-atom-name skip in correct_pdb -/

/-- **C9 (amended)**: the silent skip in `correct_pdb` tests only columns
`[13,15)`: an ATOM record is skipped (nothing emitted, state unchanged, no
error) exactly on a blank there.  A fully blank atom-name field `[12,16)`
implies that, so such records are skipped; but a record is also skipped
whenever columns 13 and 14 are blank, even if the name field is non-blank
at column 12 or 15, so non-blank-name records can be skipped too.  A record
that passes the test is always emitted (its processed line, possibly empty,
is appended, preceded by a terminator when one is marked). -/
theorem blank_name_check_cols_13_15
    (logic : Logic) (cur : Current) (isTer : Option Bool) (line : Str)
    (hatom : pySlice line 0 6 = "ATOM  ".toList) (hlen : 16 ≤ line.length) :
    (pySlice line 13 15 = [' ', ' '] →
      processLine logic cur isTer line = some ([], cur, isTer)) ∧
    (pySlice line 12 16 = "    ".toList →
      processLine logic cur isTer line = some ([], cur, isTer)) ∧
    (pySlice line 13 15 ≠ [' ', ' '] →
      ∀ out cur' t', processLine logic cur isTer line = some (out, cur', t') →
        out ≠ []) := by
  have hcond : ¬(pySlice line 0 6 = "TITLE ".toList ∨
      pySlice line 0 6 = "CRYST1".toList) := by
    rw [hatom]
    decide
  refine ⟨?_, ?_, ?_⟩
  · intro hblank
    unfold processLine
    rw [if_neg hcond, if_pos hatom, if_pos hblank]
  · intro hblank4
    have hblank : pySlice line 13 15 = [' ', ' '] := by
      have hdd : line.drop 13 = (line.drop 12).drop 1 := by
        rw [List.drop_drop]
      have hd : line.drop 12 = pySlice line 12 16 ++ line.drop 16 :=
        drop_eq_pySlice_append (by omega)
      rw [pySlice, hdd, hd, hblank4]
      rfl
    unfold processLine
    rw [if_neg hcond, if_pos hatom, if_pos hblank]
  · intro hne out cur' t' hres
    unfold processLine at hres
    rw [if_neg hcond, if_pos hatom, if_neg hne] at hres
    repeat' (first
      | split at hres
      | simp only [] at hres)
    all_goals first
      | exact Option.noConfusion hres
      | (rw [Option.some_inj, Prod.mk.injEq] at hres
         obtain ⟨h_out, _⟩ := hres
         rw [← h_out]
         simp)

/-- Witness for `blank_name_check_cols_13_15`: a fully blank atom name is
skipped; the plain carbon record is processed and emits a nonempty output
list. -/
theorem blank_name_check_cols_13_15_witness :
    processLine allLogic initCurrent none
      (mkAtomLine "    ".toList " DG".toList "   1".toList "A   ".toList) =
      some ([], initCurrent, none) ∧
    (["ATOM      1  C1   DG A   1                              1.00  0.00      A001 C  \n".toList] : List Str) ≠ [] :=
  ⟨(blank_name_check_cols_13_15 allLogic initCurrent none
      (mkAtomLine "    ".toList " DG".toList "   1".toList "A   ".toList)
      (by decide) (by decide)).2.1 (by decide),
   (blank_name_check_cols_13_15 allLogic initCurrent none lineC1
      (by decide) (by decide)).2.2 (by decide)
     ["ATOM      1  C1   DG A   1                              1.00  0.00      A001 C  \n".toList]
     { atom_number := 2, old_molecule_number := 1, last_molecule_number := 1,
       chain_id := 'A', chain_id_repeats := 1, chain := some ("A   ".toList) }
     (some false) (by decide)⟩

/-- **C9 (counterexample)**: the record whose atom-name field is `   N`
(non-blank only in column 15) is silently skipped by `correct_pdb`, because
the check looks only at columns `[13,15)`. -/
theorem nonblank_name_record_skipped :
    pySlice lineEdgeName 12 16 ≠ "    ".toList ∧
    pySlice lineEdgeName 0 6 = "ATOM  ".toList ∧
    processLine allLogic initCurrent none lineEdgeName =
      some ([], initCurrent, none) ∧
    correct_pdb initCurrent [lineEdgeName] allLogic =
      some (HEADER ++ "TER\nEND\n".toList, initCurrent) := by decide

/-! ### The unbound is_ter read when molecule_chain is disabled -/

/-- **C1**: with `molecule_chain` disabled and every other correction
enabled, `correct_pdb` fails on a single well-formed ATOM record (the
source reads the loop variable `is_ter` that no statement has assigned,
raising `UnboundLocalError`), while the same input with `molecule_chain`
enabled completes. -/
theorem correct_pdb_molecule_chain_disabled_fails :
    correct_pdb initCurrent [lineC1] logicNoMC = none ∧
      correct_pdb initCurrent [lineC1] allLogic ≠ none := by decide

/-! ### Atom-serial renumbering -/

theorem pySlice_eq_take_drop (l : Str) (a b : Nat) :
    pySlice l a b = (l.take b).drop a := by
  rw [pySlice, List.drop_take]

theorem pySlice_take_append {x rest : Str} {n a b : Nat} (hbn : b ≤ n)
    (hbx : b ≤ x.length) :
    pySlice (x.take n ++ rest) a b = pySlice x a b := by
  rw [pySlice_eq_take_drop, pySlice_eq_take_drop]
  congr 1
  rw [List.take_append_eq_append_take]
  have h0 : b - (x.take n).length = 0 := by
    simp only [List.length_take]
    omega
  rw [h0, List.take_zero, List.append_nil, List.take_take,
    Nat.min_eq_left hbn]

theorem correct_atom_number_eq {cur : Current} {line l3 : Str} {cur3 : Current}
    (h : correct_atom_number cur line = some (l3, cur3)) :
    ∃ s, number_to_hybrid36_number cur.atom_number 5 = some s ∧
      l3 = line.take 5 ++ ([' '] ++ (s ++ line.drop 11)) ∧
      cur3 = { cur with atom_number := cur.atom_number + 1 } := by
  unfold correct_atom_number at h
  split at h
  · exact Option.noConfusion h
  · next s hs =>
    rw [Option.some_inj, Prod.mk.injEq] at h
    obtain ⟨h1, h2⟩ := h
    refine ⟨s, hs, ?_, h2.symm⟩
    rw [← h1]
    simp [List.append_assoc]

theorem cmc_state_shape {cur : Current} {reset : Bool} {line l2 : Str} {t : Bool}
    {cur2 : Current} (h : correct_molecule_chain cur reset line = some (l2, t, cur2)) :
    cur2.atom_number = cur.atom_number ∧ min 21 line.length ≤ l2.length := by
  unfold correct_molecule_chain at h
  repeat' (first | split at h | simp only [] at h)
  all_goals first
    | exact Option.noConfusion h
    | (rw [Option.some_inj, Prod.mk.injEq, Prod.mk.injEq] at h
       obtain ⟨h1, h2, h3⟩ := h
       constructor
       · rw [← h3]
       · rw [← h1]
         simp only [List.length_append, List.length_take, List.length_cons,
           List.length_replicate]
         omega)

theorem correct_nomenclature_length (line : Str) :
    min 12 line.length ≤ (correct_nomenclature line).length := by
  unfold correct_nomenclature
  simp only [List.length_append, List.length_take]
  omega

theorem countQualifying_cons (l : Str) (rest : List Str) :
    countQualifying (l :: rest) =
      (if isQualifying l then 1 else 0) + countQualifying rest := by
  unfold countQualifying
  rw [List.filter_cons]
  split <;> simp <;> omega

theorem processLine_atom_number {logic : Logic} {cur : Current}
    {isTer : Option Bool} {line : Str} {out : List Str} {cur' : Current}
    {t' : Option Bool} (hnum : logic.atom_number = true)
    (hres : processLine logic cur isTer line = some (out, cur', t')) :
    cur'.atom_number = cur.atom_number + (if isQualifying line then 1 else 0) := by
  unfold processLine at hres
  by_cases h1 : pySlice line 0 6 = "TITLE ".toList ∨
      pySlice line 0 6 = "CRYST1".toList
  · rw [if_pos h1] at hres
    rw [Option.some_inj, Prod.mk.injEq, Prod.mk.injEq] at hres
    obtain ⟨_, hc, _⟩ := hres
    have hq : isQualifying line = false := by
      rcases h1 with h | h <;> simp [isQualifying, h]
    rw [hq, ← hc]
    simp
  · rw [if_neg h1] at hres
    by_cases h2 : pySlice line 0 6 = "ATOM  ".toList
    · rw [if_pos h2] at hres
      by_cases h3 : pySlice line 13 15 = [' ', ' ']
      · rw [if_pos h3] at hres
        rw [Option.some_inj, Prod.mk.injEq, Prod.mk.injEq] at hres
        obtain ⟨_, hc, _⟩ := hres
        have hq : isQualifying line = false := by
          simp [isQualifying, h3]
        rw [hq, ← hc]
        simp
      · rw [if_neg h3] at hres
        simp only [] at hres
        have hq : isQualifying line = true := by
          simp [isQualifying, h2, h3]
        rw [hq]
        by_cases hmc : logic.molecule_chain = true
        · rw [if_pos hmc] at hres
          cases hcmc : correct_molecule_chain cur logic.reset_numbers
              (if logic.nomenclature = true then correct_nomenclature line
               else line) with
          | none =>
            rw [hcmc] at hres
            exact absurd hres (by simp)
          | some r =>
            obtain ⟨l2, t2, cur2⟩ := r
            rw [hcmc] at hres
            simp only [Option.map_some'] at hres
            rw [if_pos hnum] at hres
            cases hcan : correct_atom_number cur2 l2 with
            | none =>
              rw [hcan] at hres
              exact absurd hres (by simp)
            | some r3 =>
              obtain ⟨l3, cur3⟩ := r3
              rw [hcan] at hres
              simp only [Option.some_inj, Prod.mk.injEq] at hres
              obtain ⟨_, hc, _⟩ := hres
              obtain ⟨s, _, _, hcur3⟩ := correct_atom_number_eq hcan
              obtain ⟨han, _⟩ := cmc_state_shape hcmc
              rw [← hc, hcur3]
              simp [han]
        · rw [if_neg hmc] at hres
          simp only [] at hres
          rw [if_pos hnum] at hres
          cases hcan : correct_atom_number cur
              (if logic.nomenclature = true then correct_nomenclature line
               else line) with
          | none =>
            rw [hcan] at hres
            exact absurd hres (by simp)
          | some r3 =>
            obtain ⟨l3, cur3⟩ := r3
            rw [hcan] at hres
            cases isTer with
            | none =>
              exact absurd hres (by simp)
            | some t =>
              simp only [Option.some_inj, Prod.mk.injEq] at hres
              obtain ⟨_, hc, _⟩ := hres
              obtain ⟨s, _, _, hcur3⟩ := correct_atom_number_eq hcan
              rw [← hc, hcur3]
              simp
    · rw [if_neg h2] at hres
      rw [Option.some_inj, Prod.mk.injEq, Prod.mk.injEq] at hres
      obtain ⟨_, hc, _⟩ := hres
      have h2' : pySlice line 0 6 ≠ ['A', 'T', 'O', 'M', ' ', ' '] := by
        simpa using h2
      have hq : isQualifying line = false := by
        simp [isQualifying, h2']
      rw [hq, ← hc]
      simp

theorem processLines_atom_number {logic : Logic} (hnum : logic.atom_number = true) :
    ∀ (lines : List Str) (cur : Current) (isTer : Option Bool) (body : List Str)
      (cur' : Current) (t' : Option Bool),
      processLines logic cur isTer lines = some (body, cur', t') →
      cur'.atom_number = cur.atom_number + (countQualifying lines : Int) := by
  intro lines
  induction lines with
  | nil =>
    intro cur isTer body cur' t' h
    unfold processLines at h
    rw [Option.some_inj, Prod.mk.injEq, Prod.mk.injEq] at h
    obtain ⟨_, hc, _⟩ := h
    rw [← hc]
    simp [countQualifying]
  | cons l rest ih =>
    intro cur isTer body cur' t' h
    unfold processLines at h
    cases hpl : processLine logic cur isTer l with
    | none =>
      rw [hpl] at h
      exact absurd h (by simp)
    | some r1 =>
      obtain ⟨out1, cur1, t1⟩ := r1
      rw [hpl] at h
      simp only [] at h
      cases hrest : processLines logic cur1 t1 rest with
      | none =>
        rw [hrest] at h
        exact absurd h (by simp)
      | some r2 =>
        obtain ⟨outs, cur2, t2⟩ := r2
        rw [hrest] at h
        rw [Option.some_inj, Prod.mk.injEq, Prod.mk.injEq] at h
        obtain ⟨_, hc, _⟩ := h
        have e1 := processLine_atom_number hnum hpl
        have e2 := ih cur1 t1 outs cur2 t2 hrest
        rw [← hc, e2, e1, countQualifying_cons]
        push_cast
        split <;> push_cast <;> ring

theorem remove_H_cases (line : Str) : remove_H line = [] ∨ remove_H line = line := by
  unfold remove_H
  split <;> simp

theorem processLine_qualifying
    {logic : Logic} {cur : Current} {isTer : Option Bool} {line : Str}
    {out : List Str} {cur' : Current} {t' : Option Bool}
    (hnum : logic.atom_number = true)
    (hatom : pySlice line 0 6 = "ATOM  ".toList)
    (hne : pySlice line 13 15 ≠ [' ', ' '])
    (hlen : 5 ≤ line.length)
    (hres : processLine logic cur isTer line = some (out, cur', t')) :
    cur'.atom_number = cur.atom_number + 1 ∧
    ∃ (s : Str) (tf : Bool) (l : Str),
      number_to_hybrid36_number cur.atom_number 5 = some s ∧
      out = (if tf then [TERLINE] else []) ++ [l] ∧
      (l ≠ [] → pySlice l 6 11 = s) := by
  have hcond : ¬(pySlice line 0 6 = "TITLE ".toList ∨
      pySlice line 0 6 = "CRYST1".toList) := by
    rw [hatom]
    decide
  have hq : isQualifying line = true := by
    simp [isQualifying, hatom, hne]
  have hcount := processLine_atom_number hnum hres
  rw [hq, if_pos rfl] at hcount
  refine ⟨hcount, ?_⟩
  unfold processLine at hres
  rw [if_neg hcond, if_pos hatom, if_neg hne] at hres
  simp only [] at hres
  have hlen1 : 5 ≤ (if logic.nomenclature = true then correct_nomenclature line
      else line).length := by
    split
    · have := correct_nomenclature_length line
      omega
    · exact hlen
  by_cases hmc : logic.molecule_chain = true
  · rw [if_pos hmc] at hres
    cases hcmc : correct_molecule_chain cur logic.reset_numbers
        (if logic.nomenclature = true then correct_nomenclature line
         else line) with
    | none =>
      rw [hcmc] at hres
      exact absurd hres (by simp)
    | some r =>
      obtain ⟨l2, t2, cur2⟩ := r
      rw [hcmc] at hres
      simp only [Option.map_some'] at hres
      rw [if_pos hnum] at hres
      obtain ⟨han2, hlen2⟩ := cmc_state_shape hcmc
      cases hcan : correct_atom_number cur2 l2 with
      | none =>
        rw [hcan] at hres
        exact absurd hres (by simp)
      | some r3 =>
        obtain ⟨l3, cur3⟩ := r3
        rw [hcan] at hres
        simp only [Option.some_inj, Prod.mk.injEq] at hres
        obtain ⟨hout, _, _⟩ := hres
        obtain ⟨s, hs, hl3, _⟩ := correct_atom_number_eq hcan
        rw [han2] at hs
        have hl2len : 5 ≤ l2.length := by omega
        have hslice3 : pySlice l3 6 11 = s := by
          rw [hl3, ← List.append_assoc]
          refine pySlice_pref ?_ ?_
          · simp only [List.length_append, List.length_take,
              List.length_cons, List.length_nil]
            omega
          · exact hybrid36_length (by norm_num) hs
        have hlen3 : 11 ≤ l3.length := by
          rw [hl3]
          simp only [List.length_append, List.length_take, List.length_cons,
            List.length_nil, List.length_drop]
          have := hybrid36_length (by norm_num) hs
          omega
        refine ⟨s, t2, _, hs, hout.symm, ?_⟩
        intro hl6
        set line4 := if logic.occupancy = true then correct_occupancy l3 else l3
          with hline4
        have hslice4 : pySlice line4 6 11 = s ∧ 11 ≤ line4.length := by
          rw [hline4]
          split
          · unfold correct_occupancy
            constructor
            · rw [List.append_assoc, pySlice_take_append (by norm_num) hlen3]
              exact hslice3
            · simp only [List.length_append, List.length_take]
              omega
          · exact ⟨hslice3, hlen3⟩
        set line5 := if logic.atomtype = true then correct_atomtype line4 else line4
          with hline5
        have hslice5 : pySlice line5 6 11 = s := by
          rw [hline5]
          split
          · unfold correct_atomtype
            rw [List.append_assoc, pySlice_take_append (by norm_num) hslice4.2]
            exact hslice4.1
          · exact hslice4.1
        revert hl6
        split
        · rcases remove_H_cases line5 with h | h <;> rw [h]
          · intro hc
            exact absurd rfl hc
          · intro _
            exact hslice5
        · intro _
          exact hslice5
  · rw [if_neg hmc] at hres
    simp only [] at hres
    rw [if_pos hnum] at hres
    cases hcan : correct_atom_number cur
        (if logic.nomenclature = true then correct_nomenclature line
         else line) with
    | none =>
      rw [hcan] at hres
      exact absurd hres (by simp)
    | some r3 =>
      obtain ⟨l3, cur3⟩ := r3
      rw [hcan] at hres
      cases isTer with
      | none => exact absurd hres (by simp)
      | some t =>
        simp only [Option.some_inj, Prod.mk.injEq] at hres
        obtain ⟨hout, _, _⟩ := hres
        obtain ⟨s, hs, hl3, _⟩ := correct_atom_number_eq hcan
        have hslice3 : pySlice l3 6 11 = s := by
          rw [hl3, ← List.append_assoc]
          refine pySlice_pref ?_ ?_
          · simp only [List.length_append, List.length_take,
              List.length_cons, List.length_nil]
            omega
          · exact hybrid36_length (by norm_num) hs
        have hlen3 : 11 ≤ l3.length := by
          rw [hl3]
          simp only [List.length_append, List.length_take, List.length_cons,
            List.length_nil, List.length_drop]
          have := hybrid36_length (by norm_num) hs
          omega
        refine ⟨s, t, _, hs, hout.symm, ?_⟩
        intro hl6
        set line4 := if logic.occupancy = true then correct_occupancy l3 else l3
          with hline4
        have hslice4 : pySlice line4 6 11 = s ∧ 11 ≤ line4.length := by
          rw [hline4]
          split
          · unfold correct_occupancy
            constructor
            · rw [List.append_assoc, pySlice_take_append (by norm_num) hlen3]
              exact hslice3
            · simp only [List.length_append, List.length_take]
              omega
          · exact ⟨hslice3, hlen3⟩
        set line5 := if logic.atomtype = true then correct_atomtype line4 else line4
          with hline5
        have hslice5 : pySlice line5 6 11 = s := by
          rw [hline5]
          split
          · unfold correct_atomtype
            rw [List.append_assoc, pySlice_take_append (by norm_num) hslice4.2]
            exact hslice4.1
          · exact hslice4.1
        revert hl6
        split
        · rcases remove_H_cases line5 with h | h <;> rw [h]
          · intro hc
            exact absurd rfl hc
          · intro _
            exact hslice5
        · intro _
          exact hslice5

/-- **C2 (counterexample)**: with all corrections enabled, the input
carbon–hydrogen–carbon (all on one residue) emits two records whose serial
columns are `    1` and `    3`: the hydrogen record, although dropped from
the output, consumed serial 2, so emitted serials are not consecutive and
the second emitted record does not carry the encoding of counter value 2. -/
theorem atom_serial_skips_on_hydrogen_drop :
    (processLines allLogic initCurrent none [lineC1, lineH1, lineC2]).map
        (fun r => (r.1.filter (fun l => l ≠ [])).map (fun l => pySlice l 6 11)) =
      some ["    1".toList, "    3".toList] ∧
    number_to_hybrid36_number 2 5 = some ("    2".toList) ∧
    "    3".toList ≠ "    2".toList := by decide

/-- **C2 (amended)**: when atom-number renumbering is enabled the serial
counter starts at 1 on a fresh corrector and is incremented exactly once
for every ATOM record that passes the blank-name check — including records
later dropped by hydrogen removal, which therefore consume a serial; each
record that survives carries the width-5 hybrid36 encoding of the counter
value current when it was processed in columns `[6,11)`, so emitted serials
are strictly increasing but need not be consecutive. -/
theorem atom_serial_counter_per_record :
    initCurrent.atom_number = 1 ∧
    (∀ (logic : Logic) (cur : Current) (isTer : Option Bool) (line : Str)
        (out : List Str) (cur' : Current) (t' : Option Bool),
      logic.atom_number = true →
      pySlice line 0 6 = "ATOM  ".toList →
      pySlice line 13 15 ≠ [' ', ' '] →
      5 ≤ line.length →
      processLine logic cur isTer line = some (out, cur', t') →
      cur'.atom_number = cur.atom_number + 1 ∧
      ∃ (s : Str) (tf : Bool) (l : Str),
        number_to_hybrid36_number cur.atom_number 5 = some s ∧
        out = (if tf then [TERLINE] else []) ++ [l] ∧
        (l ≠ [] → pySlice l 6 11 = s)) ∧
    (∀ (logic : Logic) (lines : List Str) (cur : Current) (isTer : Option Bool)
        (body : List Str) (cur' : Current) (t' : Option Bool),
      logic.atom_number = true →
      processLines logic cur isTer lines = some (body, cur', t') →
      cur'.atom_number = cur.atom_number + (countQualifying lines : Int)) := by
  refine ⟨rfl, ?_, ?_⟩
  · intro logic cur isTer line out cur' t' hnum hatom hne hlen hres
    exact processLine_qualifying hnum hatom hne hlen hres
  · intro logic lines cur isTer body cur' t' hnum hres
    exact processLines_atom_number hnum lines cur isTer body cur' t' hres

/-- Witness for `atom_serial_counter_per_record`: processing `lineC1` from
the fresh state bumps the counter to 2, and the three-record run
carbon–hydrogen–carbon bumps it by three (the dropped hydrogen included). -/
theorem atom_serial_counter_per_record_witness :
    ({ atom_number := 2, old_molecule_number := 1, last_molecule_number := 1,
       chain_id := 'A', chain_id_repeats := 1,
       chain := some ("A   ".toList) } : Current).atom_number =
      initCurrent.atom_number + 1 ∧
    ({ atom_number := 4, old_molecule_number := 1, last_molecule_number := 1,
       chain_id := 'A', chain_id_repeats := 1,
       chain := some ("A   ".toList) } : Current).atom_number =
      initCurrent.atom_number + (countQualifying [lineC1, lineH1, lineC2] : Int) :=
  ⟨(atom_serial_counter_per_record.2.1 allLogic initCurrent none lineC1
      ["ATOM      1  C1   DG A   1                              1.00  0.00      A001 C  \n".toList]
      { atom_number := 2, old_molecule_number := 1, last_molecule_number := 1,
        chain_id := 'A', chain_id_repeats := 1, chain := some ("A   ".toList) }
      (some false) rfl (by decide) (by decide) (by decide) (by decide)).1,
   atom_serial_counter_per_record.2.2 allLogic [lineC1, lineH1, lineC2]
     initCurrent none
     ["ATOM      1  C1   DG A   1                              1.00  0.00      A001 C  \n".toList,
      [],
      "ATOM      3  C2   DG A   1                              1.00  0.00      A001 C  \n".toList]
     { atom_number := 4, old_molecule_number := 1, last_molecule_number := 1,
       chain_id := 'A', chain_id_repeats := 1, chain := some ("A   ".toList) }
     (some false) rfl (by decide)⟩

/-! ### Terminator emission for dropped hydrogen records -/

theorem pySlice_drop_suffix {P x : Str} {k a b : Nat} (hP : P.length = k)
    (hka : k ≤ a) :
    pySlice (P ++ x.drop k) a b = pySlice x a b := by
  unfold pySlice
  rw [List.drop_append_eq_append_drop, List.drop_eq_nil_of_le (by omega),
    List.nil_append, List.drop_drop, hP]
  congr 2
  omega

theorem correct_nomenclature_length_eq {line : Str} (hlen : 20 ≤ line.length) :
    (correct_nomenclature line).length = line.length := by
  have hlA : (pySlice line 12 16).length = 4 := by
    rw [length_pySlice]
    omega
  have hlB : (pySlice line 17 20).length = 3 := by
    rw [length_pySlice]
    omega
  rcases hA : tblGet NOMCLA (pySlice line 12 16) with _ | a <;>
    rcases hB : tblGet NOMCLA_BASE (pySlice line 17 20) with _ | b
  · simp only [correct_nomenclature, hA, hB, List.length_append,
      List.length_take, List.length_cons, List.length_nil, List.length_drop,
      hlA, hlB]
    omega
  · have := tblGet_NOMCLA_BASE_length hB
    simp only [correct_nomenclature, hA, hB, List.length_append,
      List.length_take, List.length_cons, List.length_nil, List.length_drop,
      hlA, this]
    omega
  · have := tblGet_NOMCLA_length hA
    simp only [correct_nomenclature, hA, hB, List.length_append,
      List.length_take, List.length_cons, List.length_nil, List.length_drop,
      hlB, this]
    omega
  · have h4 := tblGet_NOMCLA_length hA
    have h3 := tblGet_NOMCLA_BASE_length hB
    simp only [correct_nomenclature, hA, hB, List.length_append,
      List.length_take, List.length_cons, List.length_nil, List.length_drop,
      h4, h3]
    omega

set_option maxRecDepth 8192 in
/-- **C10**: when hydrogen removal is enabled and the record that triggers
a chain/residue break is itself a hydrogen record, the loop still appends
the terminator and then appends the emptied record, so the pass emits the
terminator without the triggering record; consequently the full output can
contain two consecutive terminator lines, here the break terminator
immediately followed by the final terminator-and-end-marker pair. -/
theorem ter_emitted_for_dropped_hydrogen :
    (∀ (logic : Logic) (cur : Current) (isTer : Option Bool) (line l2 : Str)
        (t2 : Bool) (cur2 : Current) (out : List Str) (cur' : Current)
        (t' : Option Bool),
      logic.molecule_chain = true → logic.remove_H = true →
      pySlice line 0 6 = "ATOM  ".toList →
      pySlice line 13 15 ≠ [' ', ' '] →
      21 ≤ line.length →
      correct_molecule_chain cur logic.reset_numbers
        (if logic.nomenclature = true then correct_nomenclature line else line) =
        some (l2, t2, cur2) →
      t2 = true →
      'H' ∈ pySlice l2 12 16 →
      processLine logic cur isTer line = some (out, cur', t') →
      out = [TERLINE, []]) ∧
    (∃ r : Str × Current,
      correct_pdb initCurrent [lineC1, lineH2B] allLogic = some r ∧
      List.IsSuffix ("TER\nTER\nEND\n".toList) r.1) := by
  constructor
  · intro logic cur isTer line l2 t2 cur2 out cur' t' hmc hrem hatom hne hlen
      hcmc ht2 hH hres
    subst ht2
    have hcond : ¬(pySlice line 0 6 = "TITLE ".toList ∨
        pySlice line 0 6 = "CRYST1".toList) := by
      rw [hatom]
      decide
    unfold processLine at hres
    rw [if_neg hcond, if_pos hatom, if_neg hne] at hres
    simp only [] at hres
    rw [if_pos hmc, hcmc] at hres
    simp only [Option.map_some'] at hres
    have hlen1 : 21 ≤ (if logic.nomenclature = true then correct_nomenclature line
        else line).length := by
      split
      · rw [correct_nomenclature_length_eq (by omega)]
        exact hlen
      · exact hlen
    have hl2len : 21 ≤ l2.length := by
      have := (cmc_state_shape hcmc).2
      omega
    -- the H test survives every later field correction
    have key : ∀ l5 : Str, pySlice l5 12 16 = pySlice l2 12 16 → 16 ≤ l5.length →
        remove_H l5 = [] := by
      intro l5 hsl _
      unfold remove_H
      rw [hsl, if_pos hH]
    by_cases hnum : logic.atom_number = true
    · rw [if_pos hnum] at hres
      cases hcan : correct_atom_number cur2 l2 with
      | none =>
        rw [hcan] at hres
        exact absurd hres (by simp)
      | some r3 =>
        obtain ⟨l3, cur3⟩ := r3
        rw [hcan] at hres
        simp only [Option.some_inj, Prod.mk.injEq] at hres
        obtain ⟨hout, _, _⟩ := hres
        obtain ⟨s, hs, hl3, _⟩ := correct_atom_number_eq hcan
        have hslen : s.length = 5 := hybrid36_length (by norm_num) hs
        have hsl3 : pySlice l3 12 16 = pySlice l2 12 16 := by
          rw [hl3, ← List.append_assoc, ← List.append_assoc]
          exact pySlice_drop_suffix (by
            simp only [List.length_append, List.length_take, List.length_cons,
              List.length_nil, hslen]
            omega) (by omega)
        have hlen3 : 16 ≤ l3.length := by
          rw [hl3]
          simp only [List.length_append, List.length_take, List.length_cons,
            List.length_nil, List.length_drop, hslen]
          omega
        set line4 := if logic.occupancy = true then correct_occupancy l3 else l3
          with hline4
        have h4 : pySlice line4 12 16 = pySlice l2 12 16 ∧ 16 ≤ line4.length := by
          rw [hline4]
          split
          · unfold correct_occupancy
            constructor
            · rw [List.append_assoc, pySlice_take_append (by norm_num) hlen3]
              exact hsl3
            · simp only [List.length_append, List.length_take]
              omega
          · exact ⟨hsl3, hlen3⟩
        set line5 := if logic.atomtype = true then correct_atomtype line4 else line4
          with hline5
        have h5 : pySlice line5 12 16 = pySlice l2 12 16 ∧ 16 ≤ line5.length := by
          rw [hline5]
          split
          · unfold correct_atomtype
            constructor
            · rw [List.append_assoc, pySlice_take_append (by norm_num) h4.2]
              exact h4.1
            · simp only [List.length_append, List.length_take]
              omega
          · exact h4
        rw [← hout, if_pos hrem, key line5 h5.1 h5.2]
        simp
    · rw [if_neg hnum] at hres
      simp only [Option.some_inj, Prod.mk.injEq] at hres
      obtain ⟨hout, _, _⟩ := hres
      have hlen3 : 16 ≤ l2.length := by omega
      set line4 := if logic.occupancy = true then correct_occupancy l2 else l2
        with hline4
      have h4 : pySlice line4 12 16 = pySlice l2 12 16 ∧ 16 ≤ line4.length := by
        rw [hline4]
        split
        · unfold correct_occupancy
          constructor
          · rw [List.append_assoc, pySlice_take_append (by norm_num) hlen3]
          · simp only [List.length_append, List.length_take]
            omega
        · exact ⟨rfl, hlen3⟩
      set line5 := if logic.atomtype = true then correct_atomtype line4 else line4
        with hline5
      have h5 : pySlice line5 12 16 = pySlice l2 12 16 ∧ 16 ≤ line5.length := by
        rw [hline5]
        split
        · unfold correct_atomtype
          constructor
          · rw [List.append_assoc, pySlice_take_append (by norm_num) h4.2]
            exact h4.1
          · simp only [List.length_append, List.length_take]
            omega
        · exact h4
      rw [← hout, if_pos hrem, key line5 h5.1 h5.2]
      simp
  · exact ⟨(correct_pdb initCurrent [lineC1, lineH2B] allLogic).getD
      ([], initCurrent), by decide, by decide⟩

set_option maxRecDepth 8192 in
/-- Witness for `ter_emitted_for_dropped_hydrogen`: after the carbon record
on segment `A`, the hydrogen record on segment `B` triggers a break and is
dropped, yet its loop iteration emits exactly a terminator followed by the
emptied record. -/
theorem ter_emitted_for_dropped_hydrogen_witness :
    (["TER\n".toList, ([] : Str)] : List Str) = [TERLINE, []] :=
  ter_emitted_for_dropped_hydrogen.1 allLogic
    ({ initCurrent with atom_number := 2, chain := some ("A   ".toList) })
    (some false) lineH2B
    ("ATOM      1  H1   DG B   1                              0.00  0.00      B001 C  \n".toList)
    true
    ({ initCurrent with atom_number := 2, chain_id := 'B', chain := some ("B   ".toList) })
    ["TER\n".toList, []]
    ({ initCurrent with atom_number := 3, chain_id := 'B', chain := some ("B   ".toList) })
    (some true) rfl rfl (by decide) (by decide) (by decide) (by decide) rfl
    (by decide) (by decide)

/-! ### Corrector state across calls -/

set_option maxRecDepth 8192 in
/-- **C7 (counterexample)**: calling `correct_pdb` a second time on the
same corrector (reusing the state left by the first call) succeeds but
produces a different result than a fresh corrector does on the same input:
the `current` dictionary is installed at construction and never reset per
call, so the serial counter and last-seen segment survive between calls. -/
theorem corrector_state_persists_across_calls :
    ((correct_pdb initCurrent [lineC1] allLogic).bind
        (fun r => correct_pdb r.2 [lineC1] allLogic)) ≠
      correct_pdb initCurrent [lineC1] allLogic ∧
    ((correct_pdb initCurrent [lineC1] allLogic).bind
        (fun r => correct_pdb r.2 [lineC1] allLogic)).isSome = true := by decide

theorem processLines_append (logic : Logic) :
    ∀ (f1 f2 : List Str) (cur : Current) (isTer : Option Bool),
      processLines logic cur isTer (f1 ++ f2) =
        match processLines logic cur isTer f1 with
        | none => none
        | some (b1, c1, t1) =>
          match processLines logic c1 t1 f2 with
          | none => none
          | some (b2, c2, t2) => some (b1 ++ b2, c2, t2) := by
  intro f1
  induction f1 with
  | nil =>
    intro f2 cur isTer
    simp only [List.nil_append, processLines]
    cases h2 : processLines logic cur isTer f2 with
    | none => rfl
    | some r =>
      obtain ⟨b2, c2, t2⟩ := r
      simp
  | cons l rest ih =>
    intro f2 cur isTer
    simp only [List.cons_append, processLines]
    cases hpl : processLine logic cur isTer l with
    | none => rfl
    | some r1 =>
      obtain ⟨o1, c1, t1⟩ := r1
      simp only [List.append_eq]
      rw [ih f2 c1 t1]
      cases hr : processLines logic c1 t1 rest with
      | none => rfl
      | some r2 =>
        obtain ⟨b2, c2, t2⟩ := r2
        simp only []
        cases h3 : processLines logic c2 t2 f2 with
        | none => rfl
        | some r3 =>
          obtain ⟨b3, c3, t3⟩ := r3
          simp [List.append_assoc]

theorem processLine_qual_ignores_isTer {logic : Logic}
    (hmc : logic.molecule_chain = true) (cur : Current) (line : Str)
    (ta tb : Option Bool)
    (h1 : ¬(pySlice line 0 6 = "TITLE ".toList ∨
      pySlice line 0 6 = "CRYST1".toList))
    (h2 : pySlice line 0 6 = "ATOM  ".toList)
    (h3 : pySlice line 13 15 ≠ [' ', ' ']) :
    processLine logic cur ta line = processLine logic cur tb line := by
  unfold processLine
  rw [if_neg h1, if_pos h2, if_neg h3, if_neg h1, if_pos h2, if_neg h3]
  simp only []
  rw [if_pos hmc, if_pos hmc]

theorem processLine_isTer_irrel {logic : Logic} (hmc : logic.molecule_chain = true)
    {cur : Current} {line : Str} {ta : Option Bool} {out : List Str}
    {cur2 : Current} {t2 : Option Bool} (tb : Option Bool)
    (h : processLine logic cur ta line = some (out, cur2, t2)) :
    ∃ t2', processLine logic cur tb line = some (out, cur2, t2') := by
  by_cases h1 : pySlice line 0 6 = "TITLE ".toList ∨
      pySlice line 0 6 = "CRYST1".toList
  · unfold processLine at h ⊢
    rw [if_pos h1] at h ⊢
    rw [Option.some_inj, Prod.mk.injEq, Prod.mk.injEq] at h
    obtain ⟨ho, hc, _⟩ := h
    exact ⟨tb, by rw [ho, hc]⟩
  · by_cases h2 : pySlice line 0 6 = "ATOM  ".toList
    · by_cases h3 : pySlice line 13 15 = [' ', ' ']
      · unfold processLine at h ⊢
        rw [if_neg h1, if_pos h2, if_pos h3] at h ⊢
        rw [Option.some_inj, Prod.mk.injEq, Prod.mk.injEq] at h
        obtain ⟨ho, hc, _⟩ := h
        exact ⟨tb, by rw [ho, hc]⟩
      · exact ⟨t2, by
          rw [processLine_qual_ignores_isTer hmc cur line tb ta h1 h2 h3]
          exact h⟩
    · unfold processLine at h ⊢
      rw [if_neg h1, if_neg h2] at h ⊢
      rw [Option.some_inj, Prod.mk.injEq, Prod.mk.injEq] at h
      obtain ⟨ho, hc, _⟩ := h
      exact ⟨tb, by rw [ho, hc]⟩

theorem processLines_isTer_irrel {logic : Logic}
    (hmc : logic.molecule_chain = true) :
    ∀ (f : List Str) (cur : Current) (ta tb : Option Bool) (b : List Str)
      (c : Current) (t2 : Option Bool),
      processLines logic cur ta f = some (b, c, t2) →
      ∃ t2', processLines logic cur tb f = some (b, c, t2') := by
  intro f
  induction f with
  | nil =>
    intro cur ta tb b c t2 h
    unfold processLines at h ⊢
    rw [Option.some_inj, Prod.mk.injEq, Prod.mk.injEq] at h
    obtain ⟨hb, hc, _⟩ := h
    exact ⟨tb, by rw [hb, hc]⟩
  | cons l rest ih =>
    intro cur ta tb b c t2 h
    unfold processLines at h ⊢
    cases hpl : processLine logic cur ta l with
    | none =>
      rw [hpl] at h
      exact absurd h (by simp)
    | some r1 =>
      obtain ⟨o1, c1, t1⟩ := r1
      rw [hpl] at h
      simp only [] at h
      cases hr : processLines logic c1 t1 rest with
      | none =>
        rw [hr] at h
        exact absurd h (by simp)
      | some r2 =>
        obtain ⟨b2, c2, t2a⟩ := r2
        rw [hr] at h
        rw [Option.some_inj, Prod.mk.injEq, Prod.mk.injEq] at h
        obtain ⟨hb, hc, _⟩ := h
        obtain ⟨t1', hpl'⟩ := processLine_isTer_irrel hmc tb hpl
        obtain ⟨t2', hr'⟩ := ih c1 t1 t1' b2 c2 t2a hr
        rw [hpl']
        simp only []
        rw [hr']
        refine ⟨t2', ?_⟩
        simp only []
        rw [hb, hc]

/-- **C7 (amended)**: the `current` state is installed once per corrector
instance and threaded through every call of `correct_pdb` with no per-call
reset (only the loop-local `is_ter` starts fresh).  Consequently, with the
chain/residue renumbering enabled, running a second input on the corrector
state left by a first input produces exactly the continuation of a single
pass over the concatenated input. -/
theorem correct_pdb_shared_state_concat
    (logic : Logic) (f1 f2 : List Str) (cur : Current) (t0 : Option Bool)
    (b1 b2 : List Str) (c1 c2 : Current) (t1 t2 : Option Bool)
    (hmc : logic.molecule_chain = true)
    (h1 : processLines logic cur t0 f1 = some (b1, c1, t1))
    (h2 : processLines logic c1 none f2 = some (b2, c2, t2)) :
    (processLines logic cur t0 (f1 ++ f2)).map (fun r => (r.1, r.2.1)) =
      some (b1 ++ b2, c2) := by
  rw [processLines_append, h1]
  simp only []
  obtain ⟨t2', h2'⟩ := processLines_isTer_irrel hmc f2 c1 none t1 b2 c2 t2 h2
  rw [h2']
  simp

set_option maxRecDepth 8192 in
/-- Witness for `correct_pdb_shared_state_concat`: running `lineC2` on the
state left by a pass over `lineC1` yields exactly the tail of one pass over
both records (the second record gets serial 2, not 1). -/
theorem correct_pdb_shared_state_concat_witness :
    (processLines allLogic initCurrent none ([lineC1] ++ [lineC2])).map
        (fun r => (r.1, r.2.1)) =
      some
        (["ATOM      1  C1   DG A   1                              1.00  0.00      A001 C  \n".toList,
          "ATOM      2  C2   DG A   1                              1.00  0.00      A001 C  \n".toList],
         ({ initCurrent with atom_number := 3, chain := some ("A   ".toList) })) :=
  correct_pdb_shared_state_concat allLogic [lineC1] [lineC2] initCurrent none
    ["ATOM      1  C1   DG A   1                              1.00  0.00      A001 C  \n".toList]
    ["ATOM      2  C2   DG A   1                              1.00  0.00      A001 C  \n".toList]
    ({ initCurrent with atom_number := 2, chain := some ("A   ".toList) })
    ({ initCurrent with atom_number := 3, chain := some ("A   ".toList) })
    (some false) (some false) rfl (by decide) (by decide)
